import Mathlib

/-! # The in-memory page cache of `chunk/mem_cache.go`

A shallow embedding of `memcache` (type, `newMemStore`, `stats`, `cache`, `delete`, `remove`,
`load`, `cleanup`) and the properties of its byte accounting, reference handling and
pairwise eviction pass.

Conventions of the embedding.

* The Go map `pages map[string]memItem` is an association list with unique keys
  (`AList`); `m[k]`, `m[k] = v` and `delete(m, k)` are `AList.lookup`, `AList.insert` and
  `AList.erase`.  The order of the association list carries no meaning.
* `time.Time` values are integers, `t.After(u)` is `u < t`, and every `time.Now()` is an
  argument of the operation that reads the clock.
* `for k, v := range c.pages` yields the keys in an order the caller of the model chooses
  (`order`).  A key that is no longer in the map when its turn comes is not produced, as in
  Go.  An order the Go runtime can really produce lists every key of the map once
  (`validOrder`).
* The mutex is not modelled: every operation holds it from entry to return, so the operations
  are atomic steps.
* `used` and `capacity` are `int64` in Go and integers here.  `newMemStore` wraps the shift as
  Go does; the additions and subtractions on `used` are exact, because a page capacity is the
  size of a buffer in memory and the sums stay far below `2^63`.
-/

namespace chunk

/-! ## The data model -/

/-- Modelled from the spec: Page is the external reference-counted byte buffer (its Go
declaration is not part of the cache's file).  The cache reads only the identity of the page
(the pointer, `addr`) and the capacity of its buffer (`cap(p.Data)`, fixed while the cache
holds the page). -/
structure Page where
  addr : Nat
  cap : Nat
deriving DecidableEq

/-- Modelled from the spec: the two operations of the Page interface the cache calls.  A call
the cache makes is recorded in the call log of the state, one record per call. -/
inductive PageCall where
  | Acquire (p : Page)
  | Release (p : Page)
deriving DecidableEq

/-- Modelled from the spec: the read handle `NewPageReader(page)` returns, bound to the page. -/
structure PageReader where
  page : Page
deriving DecidableEq

/-- Modelled from the spec: the configuration, with the one option the cache reads
(`cache_size_mb`). -/
structure Config where
  CacheSize : Int
deriving DecidableEq

/-- The Go struct `memItem`. -/
structure memItem where
  atime : Int
  page : Page
deriving DecidableEq

/-- The Go struct `memcache` (without its mutex). -/
structure memcache where
  capacity : Int
  used : Int
  pages : AList (fun _ : String => memItem)
deriving DecidableEq

/-- The cache together with the log of the `Acquire`/`Release` calls it has made on pages,
most recent call first. -/
structure World where
  mem : memcache
  calls : List PageCall
deriving DecidableEq

/-- Two's-complement wrap of an integer to `int64`. -/
def wrapInt64 (x : Int) : Int := (x + 2 ^ 63) % 2 ^ 64 - 2 ^ 63

/-! ## The operations of the cache -/

/-- `newMemStore`: capacity is `config.CacheSize << 20`, the table is empty, `used` is 0. -/
def newMemStore (config : Config) : World :=
  { mem := { capacity := wrapInt64 (config.CacheSize * 2 ^ 20), used := 0, pages := ∅ },
    calls := [] }

/-- `stats`: the number of entries and `used`. -/
def stats (w : World) : Int × Int :=
  ((w.mem.pages.entries.length : Int), w.mem.used)

/-- `delete`: subtract the accounted size, release the page, delete the key from the map. -/
def delete (key : String) (p : Page) (w : World) : World :=
  let size : Int := (p.cap : Int)
  { mem := { w.mem with used := w.mem.used - (size + 4096), pages := w.mem.pages.erase key },
    calls := PageCall.Release p :: w.calls }

/-- The loop of `cleanup` over the keys that `range` still has to yield, with the loop
variables `cnt`, `lastKey` and `lastValue`. -/
def cleanupLoop : List String → Nat → String → memItem → World → World
  | [], _, _, _, w => w
  | k :: rest, cnt, lastKey, lastValue, w =>
    match w.mem.pages.lookup k with
    | none => cleanupLoop rest cnt lastKey lastValue w
    | some v =>
      let lastKey' := if cnt = 0 ∨ v.atime < lastValue.atime then k else lastKey
      let lastValue' := if cnt = 0 ∨ v.atime < lastValue.atime then v else lastValue
      if cnt + 1 > 1 then
        let w' := delete lastKey' lastValue'.page w
        if w'.mem.used < w'.mem.capacity then w'
        else cleanupLoop rest 0 lastKey' lastValue' w'
      else cleanupLoop rest (cnt + 1) lastKey' lastValue' w

/-- `cleanup`: the loop started with `cnt = 0` and zero-valued `lastKey`, `lastValue` (which
the first iteration overwrites before reading them). -/
def cleanup (order : List String) (w : World) : World :=
  cleanupLoop order 0 "" ⟨0, ⟨0, 0⟩⟩ w

/-- `cache`: nothing when the capacity is 0 or the key is present; otherwise acquire the
page, store it with the current time, account for it, and run `cleanup` when over capacity. -/
def cache (key : String) (p : Page) (now : Int) (order : List String) (w : World) : World :=
  if w.mem.capacity = 0 then w
  else
    match w.mem.pages.lookup key with
    | some _ => w
    | none =>
      let size : Int := (p.cap : Int)
      let w' : World :=
        { mem := { w.mem with pages := w.mem.pages.insert key ⟨now, p⟩,
                              used := w.mem.used + (size + 4096) },
          calls := PageCall.Acquire p :: w.calls }
      if w'.mem.used > w'.mem.capacity then cleanup order w' else w'

/-- `remove`: delete the entry of the key when there is one. -/
def remove (key : String) (w : World) : World :=
  match w.mem.pages.lookup key with
  | some item => delete key item.page w
  | none => w

/-- `load`: on a hit store the current time as access time and return a reader on the page;
on a miss return the error `not found`. -/
def load (key : String) (now : Int) (w : World) : Except String PageReader × World :=
  match w.mem.pages.lookup key with
  | some item =>
    (Except.ok ⟨item.page⟩, { w with mem := { w.mem with pages := w.mem.pages.insert key ⟨now, item.page⟩ } })
  | none => (Except.error "not found", w)

/-! ## Visit orders, sums and call sequences -/

/-- An iteration order `range` can produce on the table: every key once. -/
def validOrder (order : List String) (w : World) : Prop :=
  order.Perm w.mem.pages.keys

instance (order : List String) (w : World) : Decidable (validOrder order w) := by
  unfold validOrder; infer_instance

/-- The accounted size of an entry: the capacity of its page plus 4096. -/
def entrySize (e : Sigma (fun _ : String => memItem)) : Int := (e.2.page.cap : Int) + 4096

/-- The sum of the accounted sizes of the entries of the table. -/
def accounted (w : World) : Int := (w.mem.pages.entries.map entrySize).sum

/-- A call of the cache's interface that changes or reads the table. -/
inductive Op where
  | cache (key : String) (p : Page) (now : Int) (order : List String)
  | remove (key : String)
  | load (key : String) (now : Int)
deriving DecidableEq

/-- The state after one call. -/
def step (w : World) : Op → World
  | Op.cache key p now order => cache key p now order w
  | Op.remove key => remove key w
  | Op.load key now => (load key now w).2

/-- The state after a sequence of calls. -/
def run (w : World) (ops : List Op) : World := ops.foldl step w

/-- The sum over the entries of the table of a quantity of the entry's page. -/
def total (g : Page → Int) (w : World) : Int :=
  (w.mem.pages.entries.map (fun e => g e.2.page)).sum

/-- The number of entries of the table that hold page `p`. -/
def holding (w : World) (p : Page) : Nat :=
  w.mem.pages.entries.countP (fun e => decide (e.2.page = p))

/-- The number of `Acquire` calls on `p` in the call log. -/
def acquires (w : World) (p : Page) : Nat := w.calls.count (PageCall.Acquire p)

/-- The number of `Release` calls on `p` in the call log. -/
def releases (w : World) (p : Page) : Nat := w.calls.count (PageCall.Release p)

/-! ## Auxiliary notions of the proofs -/

/-- The loop variables of `cleanup` between two iterations: either no entry of the current
pair was seen (`cnt = 0`), or one was (`cnt = 1`) and `lastKey`, `lastValue` is an entry of
the table. -/
def Pending (cnt : Nat) (lastKey : String) (lastValue : memItem) (w : World) : Prop :=
  cnt = 0 ∨ (cnt = 1 ∧ w.mem.pages.lookup lastKey = some lastValue)

/-- The state `cache` builds between the insertion and the eviction pass. -/
def inserted (key : String) (p : Page) (now : Int) (w : World) : World :=
  { mem := { w.mem with pages := w.mem.pages.insert key ⟨now, p⟩,
                        used := w.mem.used + ((p.cap : Int) + 4096) },
    calls := PageCall.Acquire p :: w.calls }

/-- Whether the call `op` in state `w` is a `cache` call that stores page `p` (1) or not (0):
the capacity is not 0, the key is new and the page supplied is `p`. -/
def insertsPage (w : World) (op : Op) (p : Page) : Nat :=
  match op with
  | Op.cache key q _ _ =>
    if w.mem.capacity ≠ 0 ∧ w.mem.pages.lookup key = none ∧ q = p then 1 else 0
  | _ => 0

/-! ## The eviction pass as a procedure on pairs -/

/-- The entries the pass visits, in the order of the visit: every key of the order that is in
the table, with its entry. -/
def visited (order : List String) (w : World) : List (String × memItem) :=
  order.filterMap (fun k => (w.mem.pages.lookup k).map (fun v => (k, v)))

/-- The entry of the pair `(x, y)` with the smaller last access time, the first-visited entry
`x` when the two times are equal. -/
def pairVictim (x y : String × memItem) : String × memItem :=
  if y.2.atime < x.2.atime then y else x

/-- One victim for each consecutive pair `(e1, e2), (e3, e4), ...` of the visited entries; an
unpaired last entry has none. -/
def pairVictims : List (String × memItem) → List (String × memItem)
  | x :: y :: rest => pairVictim x y :: pairVictims rest
  | _ => []

/-- The value of `used` after the first `i` victims are evicted. -/
def usedAfter (used : Int) (victims : List (String × memItem)) (i : Nat) : Int :=
  used - ((victims.take i).map (fun e => (e.2.page.cap : Int) + 4096)).sum

/-- The smallest number `j` of evictions, among the numbers from `least` to the number of
pairs, after which `used < capacity`; the number of pairs when there is none. -/
def evictionCount (least : Nat) (used capacity : Int) (victims : List (String × memItem)) :
    Nat :=
  ((List.range' least (victims.length + 1 - least)).find?
    (fun i => decide (usedAfter used victims i < capacity))).getD victims.length

/-- The reference procedure: evict the victims of the first `j` pairs, in order, where `j` is
the smallest number of evictions, not below `least`, after which `used < capacity`, or the
number of pairs. -/
def cleanupSpec (least : Nat) (order : List String) (w : World) : World :=
  ((pairVictims (visited order w)).take
      (evictionCount least w.mem.used w.mem.capacity (pairVictims (visited order w)))).foldl
    (fun w e => delete e.1 e.2.page w) w

/-- Evict the victims in order and stop after the first eviction that leaves
`used < capacity`. -/
def evictUntil : List (String × memItem) → World → World
  | [], w => w
  | e :: rest, w =>
    if (delete e.1 e.2.page w).mem.used < (delete e.1 e.2.page w).mem.capacity then
      delete e.1 e.2.page w
    else evictUntil rest (delete e.1 e.2.page w)

/-! ## Example stores -/

/-- A reachable store used in examples: capacity 1 MiB, one page of accounted size 1 MiB
stored under the key `x` at time 5. -/
def oneEntryStore : World := cache "x" ⟨1, 2 ^ 20 - 4096⟩ 5 [] (newMemStore ⟨1⟩)

/-! ## Streams of insertions -/

/-- The store after the first `n` calls of a stream of `cache` calls: call `i` caches page
`pages i` under `keys i`, reads the clock value `times i` and, when its pass runs, visits the
table in the order `orders i`. -/
def feed (w : World) (keys : Nat → String) (pages : Nat → Page) (times : Nat → Int)
    (orders : Nat → List String) : Nat → World
  | 0 => w
  | n + 1 => cache (keys n) (pages n) (times n) (orders n) (feed w keys pages times orders n)

/-- Every pass of the stream visits the table, as it is after the insertion, in an order
`range` can produce. -/
def validFeed (w : World) (keys : Nat → String) (pages : Nat → Page) (times : Nat → Int)
    (orders : Nat → List String) : Prop :=
  ∀ n, validOrder (orders n)
    (inserted (keys n) (pages n) (times n) (feed w keys pages times orders n))

/-- The stream's store when every pass visits the keys in the order of the table. -/
def feedInOrder (w : World) (keys : Nat → String) (pages : Nat → Page) (times : Nat → Int) :
    Nat → World
  | 0 => w
  | n + 1 =>
    cache (keys n) (pages n) (times n)
      (inserted (keys n) (pages n) (times n) (feedInOrder w keys pages times n)).mem.pages.keys
      (feedInOrder w keys pages times n)

/-- The visit orders of `feedInOrder`. -/
def tableOrders (w : World) (keys : Nat → String) (pages : Nat → Page) (times : Nat → Int)
    (n : Nat) : List String :=
  (inserted (keys n) (pages n) (times n) (feedInOrder w keys pages times n)).mem.pages.keys

/-- The sum of the accounted sizes of the first `n` pages of a stream. -/
def cumulative (pages : Nat → Page) (n : Nat) : Int :=
  ((List.range n).map (fun i => ((pages i).cap : Int) + 4096)).sum

/-- Keys of the example stream: `k`, `kk`, `kkk`, ... -/
def slowKey (i : Nat) : String := String.mk (List.replicate (i + 1) 'k')

/-- Pages of the example stream for a capacity of 1 MiB: two pages of accounted size half the
capacity, then pages of accounted size equal to the capacity. -/
def slowPage (i : Nat) : Page := ⟨i, if i < 2 then 2 ^ 19 - 4096 else 2 ^ 20 - 4096⟩

/-- Clock values of the example stream: strictly increasing. -/
def slowTime (i : Nat) : Int := (i : Int)

/-- Pages of a second example stream for a capacity of 1 MiB: accounted sizes 512 KiB and
256 KiB in turn, each at most half the capacity. -/
def halfPage (i : Nat) : Page := ⟨i, if i % 2 = 0 then 2 ^ 19 - 4096 else 2 ^ 18 - 4096⟩

/-- What holds of the example stream's store after `n ≥ 2` insertions: capacity 1 MiB, exact
accounting, two entries, each older than the next clock value and of accounted size at least
half the capacity, and none of the keys still to come. -/
def SlowInv (n : Nat) (w : World) : Prop :=
  w.mem.capacity = 2 ^ 20 ∧ w.mem.used = accounted w ∧ w.mem.pages.entries.length = 2 ∧
  (∀ k v, w.mem.pages.lookup k = some v →
    v.atime < (n : Int) ∧ (2 : Int) ^ 19 ≤ (v.page.cap : Int) + 4096) ∧
  (∀ m, n ≤ m → w.mem.pages.lookup (slowKey m) = none)

/-! ## Sums over the table -/

theorem sum_kerase (g : Page → Int) (k : String) (v : memItem) :
    ∀ l : List (Sigma (fun _ : String => memItem)), l.dlookup k = some v →
      ((l.kerase k).map (fun e => g e.2.page)).sum = (l.map (fun e => g e.2.page)).sum - g v.page
  | [], h => by simp at h
  | ⟨k', v'⟩ :: l, h => by
    by_cases hk : k = k'
    · subst hk
      rw [List.dlookup_cons_eq] at h
      cases h
      simp
    · rw [List.dlookup_cons_ne _ _ hk] at h
      rw [List.kerase_cons_ne hk]
      simp only [List.map_cons, List.sum_cons]
      rw [sum_kerase g k v l h]
      ring

theorem total_delete (g : Page → Int) (k : String) (v : memItem) (w : World)
    (h : w.mem.pages.lookup k = some v) :
    total g (delete k v.page w) = total g w - g v.page := by
  unfold total delete
  exact sum_kerase g k v w.mem.pages.entries h

theorem accounted_eq_total (w : World) : accounted w = total (fun p => (p.cap : Int) + 4096) w := rfl

theorem holding_eq_total (w : World) (p : Page) :
    (holding w p : Int) = total (fun q => if q = p then 1 else 0) w := by
  unfold holding total
  induction w.mem.pages.entries with
  | nil => simp
  | cons e l ih =>
    simp only [List.map_cons, List.sum_cons, List.countP_cons]
    by_cases h : e.2.page = p
    · simp [h, ← ih]; ring
    · simp [h, ← ih]

/-! ## The loop of the eviction pass keeps what each deletion keeps -/

theorem cleanupLoop_invariant (P : World → Prop)
    (hP : ∀ w k v, P w → w.mem.pages.lookup k = some v → P (delete k v.page w)) :
    ∀ (order : List String) (cnt : Nat) (lastKey : String) (lastValue : memItem) (w : World),
      Pending cnt lastKey lastValue w → P w → P (cleanupLoop order cnt lastKey lastValue w) := by
  intro order
  induction order with
  | nil => intro cnt lastKey lastValue w _ h; exact h
  | cons k rest ih =>
    intro cnt lastKey lastValue w hpend h
    unfold cleanupLoop
    cases hk : w.mem.pages.lookup k with
    | none => exact ih cnt lastKey lastValue w hpend h
    | some v =>
      rcases hpend with h0 | ⟨h1, hl⟩
      · subst h0
        simp only [true_or, if_true, Nat.zero_add, gt_iff_lt, lt_self_iff_false, if_false]
        exact ih 1 k v w (Or.inr ⟨rfl, hk⟩) h
      · subst h1
        simp only [Nat.one_ne_zero, false_or, gt_iff_lt, Nat.lt_add_one, if_true]
        by_cases hlt : v.atime < lastValue.atime
        · simp only [hlt, if_true]
          have hd := hP w k v h hk
          split
          · exact hd
          · exact ih 0 k v _ (Or.inl rfl) hd
        · simp only [hlt, if_false]
          have hd := hP w lastKey lastValue h hl
          split
          · exact hd
          · exact ih 0 lastKey lastValue _ (Or.inl rfl) hd

theorem cleanup_invariant (P : World → Prop)
    (hP : ∀ w k v, P w → w.mem.pages.lookup k = some v → P (delete k v.page w))
    (order : List String) (w : World) (h : P w) : P (cleanup order w) :=
  cleanupLoop_invariant P hP order 0 _ _ w (Or.inl rfl) h

theorem cache_eq (key : String) (p : Page) (now : Int) (order : List String) (w : World) :
    cache key p now order w =
      if w.mem.capacity = 0 ∨ w.mem.pages.lookup key ≠ none then w
      else if (inserted key p now w).mem.used > (inserted key p now w).mem.capacity then
        cleanup order (inserted key p now w)
      else inserted key p now w := by
  unfold cache inserted
  by_cases hc : w.mem.capacity = 0
  · simp [hc]
  · cases hk : w.mem.pages.lookup key with
    | none => simp [hc]
    | some v => simp [hc]

theorem cache_invariant (P : World → Prop)
    (hP : ∀ w k v, P w → w.mem.pages.lookup k = some v → P (delete k v.page w))
    (key : String) (p : Page) (now : Int) (order : List String) (w : World) (h : P w)
    (hins : w.mem.capacity ≠ 0 → w.mem.pages.lookup key = none → P (inserted key p now w)) :
    P (cache key p now order w) := by
  rw [cache_eq]
  split
  · exact h
  · rename_i hn
    push_neg at hn
    have hi := hins hn.1 hn.2
    split
    · exact cleanup_invariant P hP order _ hi
    · exact hi

theorem remove_invariant (P : World → Prop)
    (hP : ∀ w k v, P w → w.mem.pages.lookup k = some v → P (delete k v.page w))
    (key : String) (w : World) (h : P w) : P (remove key w) := by
  unfold remove
  cases hk : w.mem.pages.lookup key with
  | none => exact h
  | some v => exact hP w key v h hk

theorem total_inserted (g : Page → Int) (key : String) (p : Page) (now : Int) (w : World)
    (h : w.mem.pages.lookup key = none) :
    total g (inserted key p now w) = total g w + g p := by
  unfold total inserted
  have hn : key ∉ w.mem.pages := AList.lookup_eq_none.mp h
  simp only [AList.insert_entries_of_neg hn, List.map_cons, List.sum_cons]
  ring

theorem total_load (g : Page → Int) (key : String) (now : Int) (w : World) :
    total g (load key now w).2 = total g w := by
  unfold load
  cases hk : w.mem.pages.lookup key with
  | none => rfl
  | some v =>
    show ((w.mem.pages.insert key ⟨now, v.page⟩).entries.map (fun e => g e.2.page)).sum = _
    rw [AList.insert_entries]
    simp only [List.map_cons, List.sum_cons]
    have := sum_kerase g key v w.mem.pages.entries hk
    unfold total
    rw [this]
    ring

theorem run_invariant (P : World → Prop) (hstep : ∀ w op, P w → P (step w op)) :
    ∀ (ops : List Op) (w : World), P w → P (run w ops) := by
  intro ops
  induction ops with
  | nil => intro w h; exact h
  | cons op rest ih => intro w h; exact ih (step w op) (hstep w op h)

/-! ## Byte accounting -/

theorem step_accounted (w : World) (op : Op) (h : w.mem.used = accounted w) :
    (step w op).mem.used = accounted (step w op) := by
  have hdel : ∀ (w : World) (k : String) (v : memItem), w.mem.used = accounted w →
      w.mem.pages.lookup k = some v →
      (delete k v.page w).mem.used = accounted (delete k v.page w) := by
    intro w k v hw hk
    rw [accounted_eq_total, total_delete _ k v w hk, ← accounted_eq_total, ← hw]
    rfl
  cases op with
  | cache key p now order =>
    refine cache_invariant (fun w => w.mem.used = accounted w) hdel key p now order w h ?_
    intro _ hk
    rw [accounted_eq_total, total_inserted _ key p now w hk, ← accounted_eq_total, ← h]
    rfl
  | remove key => exact remove_invariant (fun w => w.mem.used = accounted w) hdel key w h
  | load key now =>
    show (load key now w).2.mem.used = accounted (load key now w).2
    rw [accounted_eq_total, total_load, ← accounted_eq_total, ← h]
    unfold load
    cases w.mem.pages.lookup key <;> rfl

/-! ## Reference handling -/

theorem acquires_delete (k : String) (q p : Page) (w : World) :
    acquires (delete k q w) p = acquires w p := by
  simp [acquires, delete]

theorem releases_delete (k : String) (q p : Page) (w : World) :
    releases (delete k q w) p = releases w p + (if q = p then 1 else 0) := by
  simp [releases, delete, List.count_cons]

theorem holding_delete (k : String) (v : memItem) (p : Page) (w : World)
    (h : w.mem.pages.lookup k = some v) :
    (holding (delete k v.page w) p : Int) = holding w p - (if v.page = p then 1 else 0) := by
  rw [holding_eq_total, holding_eq_total, total_delete _ k v w h]

theorem step_acquires (w : World) (op : Op) (p : Page) :
    acquires (step w op) p = acquires w p + insertsPage w op p := by
  have hdel : ∀ (a : Nat) (w : World) (k : String) (v : memItem), acquires w p = a →
      w.mem.pages.lookup k = some v → acquires (delete k v.page w) p = a := by
    intro a w k v hw _
    rw [acquires_delete, hw]
  cases op with
  | cache key q now order =>
    show acquires (cache key q now order w) p = _
    unfold insertsPage
    rw [cache_eq]
    by_cases hc : w.mem.capacity = 0
    · simp [hc]
    · cases hk : w.mem.pages.lookup key with
      | some v => simp [hc, hk]
      | none =>
        have hi : acquires (inserted key q now w) p = acquires w p + (if q = p then 1 else 0) := by
          simp [acquires, inserted, List.count_cons]
        simp only [hc, hk, false_or, ne_eq, not_true_eq_false, if_false, not_false_eq_true,
          true_and]
        split
        · rw [cleanup_invariant (fun w => acquires w p = _) (hdel _) order _ hi]
        · rw [hi]
  | remove key =>
    show acquires (remove key w) p = _
    simp only [insertsPage, Nat.add_zero]
    exact remove_invariant (fun w' => acquires w' p = acquires w p) (hdel _) key w rfl
  | load key now =>
    show acquires (load key now w).2 p = _
    simp only [insertsPage, Nat.add_zero]
    unfold load
    cases w.mem.pages.lookup key <;> rfl

theorem step_releases (w : World) (op : Op) (p : Page) :
    (releases (step w op) p : Int) + holding (step w op) p =
      releases w p + holding w p + insertsPage w op p := by
  have hdel : ∀ (a : Int) (w : World) (k : String) (v : memItem),
      (releases w p : Int) + holding w p = a → w.mem.pages.lookup k = some v →
      (releases (delete k v.page w) p : Int) + holding (delete k v.page w) p = a := by
    intro a w k v hw hk
    rw [releases_delete, holding_delete k v p w hk, ← hw]
    push_cast
    ring
  cases op with
  | cache key q now order =>
    show (releases (cache key q now order w) p : Int) + holding (cache key q now order w) p = _
    unfold insertsPage
    rw [cache_eq]
    by_cases hc : w.mem.capacity = 0
    · simp [hc]
    · cases hk : w.mem.pages.lookup key with
      | some v => simp [hc, hk]
      | none =>
        have hi : (releases (inserted key q now w) p : Int) + holding (inserted key q now w) p
            = releases w p + holding w p + ((if q = p then 1 else 0 : Nat) : Int) := by
          rw [holding_eq_total, total_inserted _ key q now w hk, ← holding_eq_total]
          have : releases (inserted key q now w) p = releases w p := by
            simp [releases, inserted]
          rw [this]
          push_cast
          ring
        simp only [hc, hk, false_or, ne_eq, not_true_eq_false, if_false, not_false_eq_true,
          true_and]
        split
        · rw [cleanup_invariant (fun w => (releases w p : Int) + holding w p = _) (hdel _)
            order _ hi]
        · rw [hi]
  | remove key =>
    show (releases (remove key w) p : Int) + holding (remove key w) p = _
    simp only [insertsPage, Nat.cast_zero, add_zero]
    exact remove_invariant (fun w' => (releases w' p : Int) + holding w' p
      = releases w p + holding w p) (hdel _) key w rfl
  | load key now =>
    show (releases (load key now w).2 p : Int) + holding (load key now w).2 p = _
    simp only [insertsPage, Nat.cast_zero, add_zero]
    rw [holding_eq_total, total_load, ← holding_eq_total]
    unfold load
    cases w.mem.pages.lookup key <;> rfl

/-! ## The newest entry survives the pass -/

theorem lookup_delete_ne (k k' : String) (q : Page) (w : World) (h : k ≠ k') :
    (delete k' q w).mem.pages.lookup k = w.mem.pages.lookup k := by
  unfold delete
  exact AList.lookup_erase_ne h

theorem lookup_delete_self (k : String) (q : Page) (w : World) :
    (delete k q w).mem.pages.lookup k = none := by
  unfold delete
  exact AList.lookup_erase k _

theorem lookup_delete_some (k k' : String) (q : Page) (w : World) (v : memItem)
    (h : (delete k' q w).mem.pages.lookup k = some v) :
    k ≠ k' ∧ w.mem.pages.lookup k = some v := by
  by_cases hk : k = k'
  · subst hk
    rw [lookup_delete_self] at h
    cases h
  · exact ⟨hk, by rw [← lookup_delete_ne k k' q w hk]; exact h⟩

theorem cleanupLoop_keeps_newest (k : String) (item : memItem) :
    ∀ (order : List String) (cnt : Nat) (lastKey : String) (lastValue : memItem) (w : World),
      order.Nodup → w.mem.pages.lookup k = some item →
      (∀ k' v', k' ≠ k → w.mem.pages.lookup k' = some v' → v'.atime < item.atime) →
      (cnt = 0 ∨ (cnt = 1 ∧ w.mem.pages.lookup lastKey = some lastValue ∧ lastKey ∉ order)) →
      (cleanupLoop order cnt lastKey lastValue w).mem.pages.lookup k = some item := by
  intro order
  induction order with
  | nil => intro cnt lastKey lastValue w _ h _ _; exact h
  | cons k0 rest ih =>
    intro cnt lastKey lastValue w hnd hk hnew hpend
    have hnd' : rest.Nodup := (List.nodup_cons.mp hnd).2
    have hk0 : k0 ∉ rest := (List.nodup_cons.mp hnd).1
    unfold cleanupLoop
    cases hl : w.mem.pages.lookup k0 with
    | none =>
      refine ih cnt lastKey lastValue w hnd' hk hnew ?_
      rcases hpend with h0 | ⟨h1, hl1, hl2⟩
      · exact Or.inl h0
      · exact Or.inr ⟨h1, hl1, fun hm => hl2 (List.mem_cons_of_mem _ hm)⟩
    | some v =>
      rcases hpend with h0 | ⟨h1, hl1, hl2⟩
      · subst h0
        simp only [true_or, if_true, Nat.zero_add, gt_iff_lt, lt_self_iff_false, if_false]
        exact ih 1 k0 v w hnd' hk hnew (Or.inr ⟨rfl, hl, hk0⟩)
      · subst h1
        have hne : lastKey ≠ k0 := fun e => hl2 (e ▸ List.mem_cons_self _ _)
        simp only [Nat.one_ne_zero, false_or, gt_iff_lt, Nat.lt_add_one, if_true]
        have key : ∀ (vk : String) (vv : memItem), vk ≠ k →
            (if (delete vk vv.page w).mem.used < (delete vk vv.page w).mem.capacity then
                delete vk vv.page w
              else cleanupLoop rest 0 vk vv (delete vk vv.page w)).mem.pages.lookup k
              = some item := by
          intro vk vv hvk
          have hk' : (delete vk vv.page w).mem.pages.lookup k = some item := by
            rw [lookup_delete_ne k vk _ w (Ne.symm hvk)]; exact hk
          split
          · exact hk'
          · refine ih 0 vk vv _ hnd' hk' ?_ (Or.inl rfl)
            intro k' v' hk'k hlk
            exact hnew k' v' hk'k (lookup_delete_some k' vk _ w v' hlk).2
        by_cases hlt : v.atime < lastValue.atime
        · simp only [hlt, if_true]
          apply key
          intro e
          subst e
          have hv : v = item := by rw [hl] at hk; exact Option.some.inj hk
          subst hv
          have hlast : lastKey ≠ k0 := hne
          have := hnew lastKey lastValue hlast hl1
          omega
        · simp only [hlt, if_false]
          apply key
          intro e
          subst e
          have hv : lastValue = item := by rw [hl1] at hk; exact Option.some.inj hk
          subst hv
          exact hlt (hnew k0 v (Ne.symm hne) hl)

theorem validOrder_nodup (order : List String) (w : World) (h : validOrder order w) :
    order.Nodup :=
  (List.Perm.nodup_iff h).mpr w.mem.pages.keys_nodup

theorem lookup_inserted_self (key : String) (p : Page) (now : Int) (w : World) :
    (inserted key p now w).mem.pages.lookup key = some ⟨now, p⟩ := by
  unfold inserted
  exact AList.lookup_insert _

theorem lookup_inserted_ne (k key : String) (p : Page) (now : Int) (w : World) (h : k ≠ key) :
    (inserted key p now w).mem.pages.lookup k = w.mem.pages.lookup k := by
  unfold inserted
  exact AList.lookup_insert_ne h

theorem cache_keeps_new (key : String) (p : Page) (now : Int) (order : List String) (w : World)
    (hcap : w.mem.capacity ≠ 0) (hk : w.mem.pages.lookup key = none)
    (hnew : ∀ k' v', w.mem.pages.lookup k' = some v' → v'.atime < now)
    (hord : validOrder order (inserted key p now w)) :
    (cache key p now order w).mem.pages.lookup key = some ⟨now, p⟩ := by
  rw [cache_eq]
  simp only [hcap, hk, false_or, ne_eq, not_true_eq_false, if_false]
  split
  · refine cleanupLoop_keeps_newest key ⟨now, p⟩ order 0 _ _ _ (validOrder_nodup _ _ hord)
      (lookup_inserted_self key p now w) ?_ (Or.inl rfl)
    intro k' v' hne hl
    rw [lookup_inserted_ne k' key p now w hne] at hl
    exact hnew k' v' hl
  · exact lookup_inserted_self key p now w

/-! ## The pass is the pairwise procedure -/

theorem evictionCount_cons (used capacity : Int) (e : String × memItem)
    (rest : List (String × memItem)) :
    evictionCount 1 used capacity (e :: rest) =
      if used - ((e.2.page.cap : Int) + 4096) < capacity then 1
      else 1 + evictionCount 1 (used - ((e.2.page.cap : Int) + 4096)) capacity rest := by
  unfold evictionCount
  simp only [List.length_cons, Nat.add_sub_cancel]
  rw [List.range'_succ, List.find?_cons]
  have h1 : usedAfter used (e :: rest) 1 = used - ((e.2.page.cap : Int) + 4096) := by
    simp [usedAfter]
  rw [h1]
  by_cases hlt : used - ((e.2.page.cap : Int) + 4096) < capacity
  · simp [hlt]
  · simp only [hlt, decide_False, if_false]
    have hr : List.range' (1 + 1) rest.length = List.map (1 + ·) (List.range' 1 rest.length) := by
      rw [List.map_add_range']
    rw [hr, List.find?_map]
    have hf : ((fun i => decide (usedAfter used (e :: rest) i < capacity)) ∘ (1 + ·))
        = (fun i => decide (usedAfter (used - ((e.2.page.cap : Int) + 4096)) rest i < capacity)) := by
      funext i
      simp only [Function.comp, usedAfter, Nat.add_comm 1 i, List.take_succ_cons, List.map_cons,
        List.sum_cons]
      congr 2
      ring
    rw [hf]
    cases List.find? (fun i => decide (usedAfter (used - ((e.2.page.cap : Int) + 4096)) rest i
        < capacity)) (List.range' 1 rest.length) with
    | none => simp [Nat.add_comm]
    | some j => simp

theorem foldl_take_eq_evictUntil :
    ∀ (victims : List (String × memItem)) (w : World),
      (victims.take (evictionCount 1 w.mem.used w.mem.capacity victims)).foldl
        (fun w e => delete e.1 e.2.page w) w = evictUntil victims w
  | [], w => by simp [evictUntil]
  | e :: rest, w => by
    rw [evictionCount_cons]
    unfold evictUntil
    have hu : (delete e.1 e.2.page w).mem.used = w.mem.used - ((e.2.page.cap : Int) + 4096) := rfl
    have hc : (delete e.1 e.2.page w).mem.capacity = w.mem.capacity := rfl
    rw [hu, hc]
    by_cases hlt : w.mem.used - ((e.2.page.cap : Int) + 4096) < w.mem.capacity
    · simp [hlt]
    · simp only [hlt, if_false, Nat.add_comm 1, List.take_succ_cons, List.foldl_cons]
      have := foldl_take_eq_evictUntil rest (delete e.1 e.2.page w)
      rw [hu, hc] at this
      exact this

theorem cleanupSpec_eq_evictUntil (order : List String) (w : World) :
    cleanupSpec 1 order w = evictUntil (pairVictims (visited order w)) w :=
  foldl_take_eq_evictUntil _ w

theorem visited_delete (order : List String) (k : String) (q : Page) (w : World)
    (h : k ∉ order) : visited order (delete k q w) = visited order w := by
  unfold visited
  apply List.filterMap_congr
  intro x hx
  rw [lookup_delete_ne x k q w (fun e => h (e ▸ hx))]

theorem cleanupLoop_eq_evictUntil :
    ∀ (order : List String), order.Nodup → ∀ (w : World),
      (∀ lastKey lastValue,
        cleanupLoop order 0 lastKey lastValue w = evictUntil (pairVictims (visited order w)) w) ∧
      (∀ lastKey lastValue, lastKey ∉ order →
        cleanupLoop order 1 lastKey lastValue w =
          evictUntil (pairVictims ((lastKey, lastValue) :: visited order w)) w) := by
  intro order
  induction order with
  | nil =>
    intro _ w
    constructor
    · intro _ _; rfl
    · intro _ _ _; rfl
  | cons k rest ih =>
    intro hnd w
    have hnd' : rest.Nodup := (List.nodup_cons.mp hnd).2
    have hk : k ∉ rest := (List.nodup_cons.mp hnd).1
    cases hl : w.mem.pages.lookup k with
    | none =>
      have hv : visited (k :: rest) w = visited rest w := by
        simp [visited, List.filterMap_cons, hl]
      constructor
      · intro lastKey lastValue
        rw [hv]
        unfold cleanupLoop
        simp only [hl]
        exact (ih hnd' w).1 lastKey lastValue
      · intro lastKey lastValue hlast
        rw [hv]
        unfold cleanupLoop
        simp only [hl]
        exact (ih hnd' w).2 lastKey lastValue (fun hm => hlast (List.mem_cons_of_mem _ hm))
    | some v =>
      have hv : visited (k :: rest) w = (k, v) :: visited rest w := by
        simp [visited, List.filterMap_cons, hl]
      constructor
      · intro lastKey lastValue
        rw [hv]
        unfold cleanupLoop
        simp only [hl, true_or, if_true, Nat.zero_add, gt_iff_lt, lt_self_iff_false, if_false]
        exact (ih hnd' w).2 k v hk
      · intro lastKey lastValue hlast
        have hlast' : lastKey ∉ rest := fun hm => hlast (List.mem_cons_of_mem _ hm)
        rw [hv]
        unfold cleanupLoop
        simp only [hl, Nat.one_ne_zero, false_or, gt_iff_lt, Nat.lt_add_one, if_true]
        simp only [pairVictims, evictUntil, pairVictim]
        by_cases hlt : v.atime < lastValue.atime
        · simp only [hlt, if_true]
          rw [(ih hnd' (delete k v.page w)).1 k v, visited_delete rest k v.page w hk]
        · simp only [hlt, if_false]
          rw [(ih hnd' (delete lastKey lastValue.page w)).1 lastKey lastValue,
            visited_delete rest lastKey lastValue.page w hlast']

theorem cleanup_eq_evictUntil (order : List String) (w : World) (h : order.Nodup) :
    cleanup order w = evictUntil (pairVictims (visited order w)) w :=
  (cleanupLoop_eq_evictUntil order h w).1 _ _

theorem visited_lookup (order : List String) (w : World) :
    ∀ e ∈ visited order w, e.1 ∈ order ∧ w.mem.pages.lookup e.1 = some e.2 := by
  intro e he
  unfold visited at he
  rw [List.mem_filterMap] at he
  obtain ⟨k, hk, hm⟩ := he
  cases hl : w.mem.pages.lookup k with
  | none => rw [hl] at hm; cases hm
  | some v =>
    rw [hl] at hm
    simp only [Option.map_some', Option.some.injEq] at hm
    subst hm
    exact ⟨hk, hl⟩

theorem visited_of_present :
    ∀ (order : List String) (w : World), (∀ k ∈ order, k ∈ w.mem.pages) →
      (visited order w).map Prod.fst = order
  | [], _, _ => rfl
  | k :: rest, w, h => by
    have hk : k ∈ w.mem.pages := h k (List.mem_cons_self _ _)
    have ih := visited_of_present rest w (fun x hx => h x (List.mem_cons_of_mem _ hx))
    cases hl : w.mem.pages.lookup k with
    | none => exact absurd hk (AList.lookup_eq_none.mp hl)
    | some v =>
      have hv : visited (k :: rest) w = (k, v) :: visited rest w := by
        simp [visited, List.filterMap_cons, hl]
      rw [hv, List.map_cons, ih]

theorem visited_valid (order : List String) (w : World) (h : validOrder order w) :
    (visited order w).map Prod.fst = order :=
  visited_of_present order w (fun _ hk => AList.mem_keys.mpr ((List.Perm.mem_iff h).mp hk))

theorem validOrder_length (order : List String) (w : World) (h : validOrder order w) :
    order.length = w.mem.pages.entries.length := by
  rw [List.Perm.length_eq h]
  simp [AList.keys, List.keys]

theorem visited_length (order : List String) (w : World) (h : validOrder order w) :
    (visited order w).length = w.mem.pages.entries.length := by
  rw [← validOrder_length order w h, ← congrArg List.length (visited_valid order w h),
    List.length_map]

theorem pairVictims_length :
    ∀ (l : List (String × memItem)), (pairVictims l).length = l.length / 2
  | [] => rfl
  | [_] => by simp [pairVictims]
  | x :: y :: rest => by
    simp only [pairVictims, List.length_cons, pairVictims_length rest]
    omega

theorem pairVictims_mem :
    ∀ (l : List (String × memItem)), ∀ e ∈ pairVictims l, e ∈ l
  | [], e, h => by simp [pairVictims] at h
  | [_], e, h => by simp [pairVictims] at h
  | x :: y :: rest, e, h => by
    simp only [pairVictims, List.mem_cons] at h
    rcases h with h | h
    · subst h
      unfold pairVictim
      split <;> simp
    · exact List.mem_cons_of_mem _ (List.mem_cons_of_mem _ (pairVictims_mem rest e h))

theorem entries_length_delete (k : String) (v : memItem) (w : World)
    (h : w.mem.pages.lookup k = some v) :
    (delete k v.page w).mem.pages.entries.length + 1 = w.mem.pages.entries.length := by
  have hk : k ∈ w.mem.pages.keys :=
    AList.mem_keys.mp (AList.lookup_isSome.mp (by rw [h]; rfl))
  have h1 : (delete k v.page w).mem.pages.entries.length
      = (delete k v.page w).mem.pages.keys.length := by simp [AList.keys, List.keys]
  have h2 : w.mem.pages.entries.length = w.mem.pages.keys.length := by
    simp [AList.keys, List.keys]
  have hpos : 0 < w.mem.pages.keys.length := List.length_pos_of_mem hk
  rw [h1, h2]
  show (w.mem.pages.erase k).keys.length + 1 = _
  rw [AList.keys_erase, List.length_erase_of_mem hk]
  omega

/-- On a table of two or three entries the pass evicts exactly one entry: the victim of the
one pair. -/
theorem cleanup_one_pair (order : List String) (w : World) (h : validOrder order w)
    (hn : w.mem.pages.entries.length = 2 ∨ w.mem.pages.entries.length = 3) :
    ∃ k v, w.mem.pages.lookup k = some v ∧ cleanup order w = delete k v.page w := by
  rw [cleanup_eq_evictUntil order w (validOrder_nodup order w h)]
  have hlen := visited_length order w h
  have hmem := visited_lookup order w
  have hone : ∀ (l : List (String × memItem)), (l.length = 2 ∨ l.length = 3) →
      ∃ e, e ∈ l ∧ pairVictims l = [e] := by
    intro l hl
    match l, hl with
    | [x, y], _ => exact ⟨pairVictim x y, pairVictims_mem [x, y] _ (by simp [pairVictims]), rfl⟩
    | [x, y, z], _ =>
      exact ⟨pairVictim x y, pairVictims_mem [x, y, z] _ (by simp [pairVictims]), rfl⟩
    | [], hl => simp at hl
    | [_], hl => simp at hl
    | _ :: _ :: _ :: _ :: _, hl => simp at hl
  obtain ⟨e, he, hp⟩ := hone (visited order w) (by rw [hlen]; exact hn)
  refine ⟨e.1, e.2, (hmem e he).2, ?_⟩
  rw [hp]
  simp only [evictUntil]
  split <;> rfl

/-! ## Single calls -/

theorem erase_absent (k : String) (t : AList (fun _ : String => memItem))
    (h : t.lookup k = none) : t.erase k = t := by
  apply AList.ext
  show t.entries.kerase k = t.entries
  exact List.kerase_of_not_mem_keys (AList.mem_keys.not.mp (AList.lookup_eq_none.mp h))

theorem remove_absent (k : String) (w : World) (h : w.mem.pages.lookup k = none) :
    remove k w = w := by
  unfold remove
  rw [h]

theorem remove_present (k : String) (item : memItem) (w : World)
    (h : w.mem.pages.lookup k = some item) : remove k w = delete k item.page w := by
  unfold remove
  rw [h]

theorem remove_pages (k : String) (w : World) :
    (remove k w).mem.pages = w.mem.pages.erase k := by
  cases h : w.mem.pages.lookup k with
  | none => rw [remove_absent k w h, erase_absent k _ h]
  | some item => rw [remove_present k item w h]; rfl

theorem load_miss (k : String) (now : Int) (w : World) (h : w.mem.pages.lookup k = none) :
    load k now w = (Except.error "not found", w) := by
  unfold load
  rw [h]

theorem load_hit (k : String) (now : Int) (w : World) (item : memItem)
    (h : w.mem.pages.lookup k = some item) :
    load k now w = (Except.ok ⟨item.page⟩,
      { w with mem := { w.mem with pages := w.mem.pages.insert k ⟨now, item.page⟩ } }) := by
  unfold load
  rw [h]

theorem step_keeps_absent (k : String) (w : World) (op : Op)
    (hop : ∀ p t o, op ≠ Op.cache k p t o) (h : w.mem.pages.lookup k = none) :
    (step w op).mem.pages.lookup k = none := by
  have hdel : ∀ (w : World) (k' : String) (v : memItem), w.mem.pages.lookup k = none →
      w.mem.pages.lookup k' = some v → (delete k' v.page w).mem.pages.lookup k = none := by
    intro w k' v hw _
    by_cases e : k = k'
    · subst e; exact lookup_delete_self k _ w
    · rw [lookup_delete_ne k k' _ w e]; exact hw
  cases op with
  | cache key p now order =>
    have hne : k ≠ key := fun e => hop p now order (by rw [e])
    refine cache_invariant (fun w => w.mem.pages.lookup k = none) hdel key p now order w h ?_
    intro _ _
    show (inserted key p now w).mem.pages.lookup k = none
    rw [lookup_inserted_ne k key p now w hne]
    exact h
  | remove key => exact remove_invariant (fun w => w.mem.pages.lookup k = none) hdel key w h
  | load key now =>
    show (load key now w).2.mem.pages.lookup k = none
    cases hl : w.mem.pages.lookup key with
    | none => rw [load_miss key now w hl]; exact h
    | some item =>
      rw [load_hit key now w item hl]
      have hne : k ≠ key := fun e => by rw [e, hl] at h; cases h
      show (w.mem.pages.insert key _).lookup k = none
      rw [AList.lookup_insert_ne hne]
      exact h

theorem run_keeps_absent (k : String) :
    ∀ (ops : List Op) (w : World), (∀ op ∈ ops, ∀ p t o, op ≠ Op.cache k p t o) →
      w.mem.pages.lookup k = none → (run w ops).mem.pages.lookup k = none := by
  intro ops
  induction ops with
  | nil => intro w _ h; exact h
  | cons op rest ih =>
    intro w hops h
    exact ih (step w op) (fun o ho => hops o (List.mem_cons_of_mem _ ho))
      (step_keeps_absent k w op (hops op (List.mem_cons_self _ _)) h)

theorem cache_noop (key : String) (p : Page) (now : Int) (order : List String) (w : World)
    (h : w.mem.capacity = 0 ∨ w.mem.pages.lookup key ≠ none) :
    cache key p now order w = w := by
  rw [cache_eq, if_pos h]

theorem run_cache_capacity_zero :
    ∀ (ops : List Op) (w : World), w.mem.capacity = 0 →
      (∀ op ∈ ops, ∃ k p t o, op = Op.cache k p t o) → run w ops = w := by
  intro ops
  induction ops with
  | nil => intro w _ _; rfl
  | cons op rest ih =>
    intro w hc hops
    obtain ⟨k, p, t, o, rfl⟩ := hops op (List.mem_cons_self _ _)
    show run (cache k p t o w) rest = w
    rw [cache_noop k p t o w (Or.inl hc)]
    exact ih w hc (fun o ho => hops o (List.mem_cons_of_mem _ ho))

theorem lookup_foldl_delete (k : String) :
    ∀ (victims : List (String × memItem)) (w : World),
      ((victims.foldl (fun w e => delete e.1 e.2.page w) w).mem.pages.lookup k
        = if k ∈ victims.map Prod.fst then none else w.mem.pages.lookup k)
  | [], w => by simp
  | e :: rest, w => by
    rw [List.foldl_cons, lookup_foldl_delete k rest (delete e.1 e.2.page w)]
    by_cases hr : k ∈ rest.map Prod.fst
    · simp [hr]
    · by_cases he : k = e.1
      · subst he
        simp [hr, lookup_delete_self]
      · have : k ∉ (e :: rest).map Prod.fst := by
          simp only [List.map_cons, List.mem_cons, not_or]
          exact ⟨he, hr⟩
        rw [if_neg hr, if_neg this, lookup_delete_ne k e.1 _ w he]

theorem evictionCount_le (least : Nat) (used capacity : Int)
    (victims : List (String × memItem)) :
    evictionCount least used capacity victims ≤ victims.length := by
  unfold evictionCount
  cases h : List.find? (fun i => decide (usedAfter used victims i < capacity))
      (List.range' least (victims.length + 1 - least)) with
  | none => simp
  | some j =>
    have hm := List.mem_of_find?_eq_some h
    rw [List.mem_range'_1] at hm
    simp only [Option.getD_some]
    omega

theorem evictionCount_zero_eq_one (used capacity : Int) (victims : List (String × memItem))
    (h : capacity ≤ used) :
    evictionCount 0 used capacity victims = evictionCount 1 used capacity victims := by
  unfold evictionCount
  have h0 : ¬ usedAfter used victims 0 < capacity := by
    simp only [usedAfter, List.take_zero, List.map_nil, List.sum_nil, sub_zero]
    exact not_lt.mpr h
  simp only [Nat.sub_zero, Nat.add_sub_cancel]
  rw [List.range'_succ, List.find?_cons]
  simp only [h0, decide_False]

theorem usedAfter_cons (used : Int) (e : String × memItem) (rest : List (String × memItem))
    (i : Nat) :
    usedAfter used (e :: rest) (i + 1)
      = usedAfter (used - ((e.2.page.cap : Int) + 4096)) rest i := by
  simp only [usedAfter, List.take_succ_cons, List.map_cons, List.sum_cons]
  ring

theorem evictionCount_least (capacity : Int) :
    ∀ (victims : List (String × memItem)) (used : Int),
      (victims ≠ [] → 1 ≤ evictionCount 1 used capacity victims) ∧
      (∀ i, 1 ≤ i → i < evictionCount 1 used capacity victims →
        capacity ≤ usedAfter used victims i) ∧
      (evictionCount 1 used capacity victims < victims.length →
        usedAfter used victims (evictionCount 1 used capacity victims) < capacity)
  | [], used => by
    have h0 : evictionCount 1 used capacity [] = 0 := by simp [evictionCount]
    rw [h0]
    refine ⟨fun h => absurd rfl h, fun i h1 h2 => by omega, fun h => by simp at h⟩
  | e :: rest, used => by
    have ih := evictionCount_least capacity rest (used - ((e.2.page.cap : Int) + 4096))
    rw [evictionCount_cons]
    have h1 : usedAfter used (e :: rest) 1 = used - ((e.2.page.cap : Int) + 4096) := by
      simp [usedAfter]
    by_cases hlt : used - ((e.2.page.cap : Int) + 4096) < capacity
    · simp only [hlt, if_true]
      refine ⟨fun _ => le_refl 1, fun i hi1 hi2 => by omega, fun _ => by rw [h1]; exact hlt⟩
    · simp only [hlt, if_false]
      refine ⟨fun _ => by omega, ?_, ?_⟩
      · intro i hi1 hi2
        obtain ⟨i', rfl⟩ : ∃ i', i = i' + 1 := ⟨i - 1, by omega⟩
        rw [usedAfter_cons]
        by_cases hz : i' = 0
        · subst hz
          simp only [usedAfter, List.take_zero, List.map_nil, List.sum_nil, sub_zero]
          exact not_lt.mp hlt
        · exact ih.2.1 i' (by omega) (by omega)
      · intro hj
        rw [Nat.add_comm 1, usedAfter_cons]
        apply ih.2.2
        simp only [List.length_cons] at hj
        omega

theorem used_foldl_delete :
    ∀ (victims : List (String × memItem)) (w : World),
      (victims.foldl (fun w e => delete e.1 e.2.page w) w).mem.used
        = usedAfter w.mem.used victims victims.length
  | [], w => by simp [usedAfter]
  | e :: rest, w => by
    rw [List.foldl_cons, used_foldl_delete rest (delete e.1 e.2.page w), List.length_cons,
      usedAfter_cons]
    rfl

theorem usedAfter_take (used : Int) (victims : List (String × memItem)) (j : Nat)
    (h : j ≤ victims.length) :
    usedAfter used (victims.take j) (victims.take j).length = usedAfter used victims j := by
  unfold usedAfter
  rw [List.length_take, Nat.min_eq_left h, List.take_take, Nat.min_self]

theorem lookup_empty (w : World) (h : w.mem.pages = ∅) (k : String) :
    w.mem.pages.lookup k = none := by
  rw [h]; rfl

theorem entries_length_inserted (key : String) (p : Page) (now : Int) (w : World)
    (h : w.mem.pages.lookup key = none) :
    (inserted key p now w).mem.pages.entries.length = w.mem.pages.entries.length + 1 := by
  unfold inserted
  simp only [AList.insert_entries_of_neg (AList.lookup_eq_none.mp h), List.length_cons]

/-! ## Streams of insertions -/

theorem feed_tableOrders (w : World) (keys : Nat → String) (pages : Nat → Page)
    (times : Nat → Int) :
    ∀ n, feed w keys pages times (tableOrders w keys pages times) n
      = feedInOrder w keys pages times n
  | 0 => rfl
  | n + 1 => by
    show cache _ _ _ _ (feed w keys pages times (tableOrders w keys pages times) n) = _
    rw [feed_tableOrders w keys pages times n]
    rfl

theorem validFeed_tableOrders (w : World) (keys : Nat → String) (pages : Nat → Page)
    (times : Nat → Int) : validFeed w keys pages times (tableOrders w keys pages times) := by
  intro n
  rw [feed_tableOrders]
  exact List.Perm.refl _

theorem slowKey_injective : Function.Injective slowKey := by
  intro i j h
  unfold slowKey at h
  have h' := congrArg (fun s => s.data.length) h
  simp only [List.length_replicate] at h'
  omega

theorem evictUntil_used_le :
    ∀ (victims : List (String × memItem)) (w : World),
      (evictUntil victims w).mem.used ≤ w.mem.used
  | [], w => le_refl _
  | e :: rest, w => by
    unfold evictUntil
    have hd : (delete e.1 e.2.page w).mem.used ≤ w.mem.used := by
      show w.mem.used - ((e.2.page.cap : Int) + 4096) ≤ w.mem.used
      omega
    split
    · exact hd
    · exact le_trans (evictUntil_used_le rest _) hd

theorem accounted_nonneg (w : World) : 0 ≤ accounted w := by
  unfold accounted
  apply List.sum_nonneg
  intro x hx
  rw [List.mem_map] at hx
  obtain ⟨e, _, rfl⟩ := hx
  unfold entrySize
  omega

theorem accounted_empty (w : World) (h : w.mem.pages.entries = []) : accounted w = 0 := by
  unfold accounted
  rw [h]
  rfl

theorem cache_capacity (key : String) (p : Page) (now : Int) (order : List String) (w : World) :
    (cache key p now order w).mem.capacity = w.mem.capacity :=
  cache_invariant (fun w' => w'.mem.capacity = w.mem.capacity)
    (fun _ _ _ h _ => h) key p now order w rfl (fun _ _ => rfl)

/-- What `cache` keeps of a property of all entries that the new entry has too. -/
theorem cache_all_entries (Q : memItem → Prop) (key : String) (p : Page) (now : Int)
    (order : List String) (w : World)
    (h : ∀ k v, w.mem.pages.lookup k = some v → Q v) (hp : Q ⟨now, p⟩) :
    ∀ k v, (cache key p now order w).mem.pages.lookup k = some v → Q v := by
  refine cache_invariant (fun w => ∀ k v, w.mem.pages.lookup k = some v → Q v) ?_ key p now
    order w h ?_
  · intro w k' v' hw _ k v hl
    exact hw k v (lookup_delete_some k k' _ w v hl).2
  · intro _ _ k v hl
    by_cases hk : k = key
    · subst hk
      rw [lookup_inserted_self] at hl
      cases hl
      exact hp
    · rw [lookup_inserted_ne k key p now w hk] at hl
      exact h k v hl

theorem cache_uniform_within (s : Int) (key : String) (p : Page) (now : Int)
    (order : List String) (w : World)
    (hacc : w.mem.used = accounted w)
    (huni : ∀ k v, w.mem.pages.lookup k = some v → (v.page.cap : Int) + 4096 = s)
    (hle : w.mem.used ≤ w.mem.capacity)
    (hp : (p.cap : Int) + 4096 = s) (hs : s ≤ w.mem.capacity)
    (hord : validOrder order (inserted key p now w)) :
    (cache key p now order w).mem.used ≤ w.mem.capacity := by
  rw [cache_eq]
  split
  · exact hle
  · rename_i hn
    push_neg at hn
    have hk : w.mem.pages.lookup key = none := hn.2
    split
    · rename_i hgt
      have hu' : (inserted key p now w).mem.used = w.mem.used + s := by
        show w.mem.used + ((p.cap : Int) + 4096) = _
        rw [hp]
      have hc' : (inserted key p now w).mem.capacity = w.mem.capacity := rfl
      rw [hu', hc'] at hgt
      rw [cleanup_eq_evictUntil order _ (validOrder_nodup order _ hord)]
      have hne : w.mem.pages.entries ≠ [] := by
        intro he
        have := accounted_empty w he
        omega
      have hlen : 1 ≤ (pairVictims (visited order (inserted key p now w))).length := by
        rw [pairVictims_length, visited_length order _ hord,
          entries_length_inserted key p now w hk]
        have : 1 ≤ w.mem.pages.entries.length := List.length_pos.mpr hne
        omega
      have hmem := pairVictims_mem (visited order (inserted key p now w))
      have hvis := visited_lookup order (inserted key p now w)
      match hv : pairVictims (visited order (inserted key p now w)), hlen with
      | e :: rest, _ =>
        have he : (inserted key p now w).mem.pages.lookup e.1 = some e.2 :=
          (hvis e (hmem e (by rw [hv]; exact List.mem_cons_self _ _))).2
        have hsize : (e.2.page.cap : Int) + 4096 = s := by
          by_cases hek : e.1 = key
          · rw [hek, lookup_inserted_self] at he
            rw [← Option.some.inj he]
            exact hp
          · rw [lookup_inserted_ne e.1 key p now w hek] at he
            exact huni e.1 e.2 he
        have hd : (delete e.1 e.2.page (inserted key p now w)).mem.used = w.mem.used := by
          show (inserted key p now w).mem.used - ((e.2.page.cap : Int) + 4096) = _
          rw [hu', hsize]
          ring
        unfold evictUntil
        split
        · rw [hd]; exact hle
        · exact le_trans (evictUntil_used_le rest _) (by rw [hd]; exact hle)
    · rename_i hngt
      exact not_lt.mp hngt

theorem accounted_two (w : World) (h : w.mem.pages.entries.length = 2) :
    ∃ e1 e2, w.mem.pages.entries = [e1, e2] ∧ accounted w = entrySize e1 + entrySize e2 := by
  unfold accounted
  match hw : w.mem.pages.entries, h with
  | [e1, e2], _ => exact ⟨e1, e2, rfl, by simp⟩

theorem slowPage_size (n : Nat) (hn : 2 ≤ n) : ((slowPage n).cap : Int) + 4096 = 2 ^ 20 := by
  have h : (slowPage n).cap = 2 ^ 20 - 4096 := by
    unfold slowPage
    simp only [if_neg (show ¬ n < 2 by omega)]
  rw [h]
  decide

theorem slow_step (n : Nat) (hn : 2 ≤ n) (order : List String) (w : World)
    (hinv : SlowInv n w)
    (hord : validOrder order (inserted (slowKey n) (slowPage n) (slowTime n) w)) :
    SlowInv (n + 1) (cache (slowKey n) (slowPage n) (slowTime n) order w) ∧
    (2 : Int) ^ 20 < (cache (slowKey n) (slowPage n) (slowTime n) order w).mem.used := by
  obtain ⟨hcap, hacc, hlen, hent, hfresh⟩ := hinv
  have hsz := slowPage_size n hn
  have hk : w.mem.pages.lookup (slowKey n) = none := hfresh n (le_refl n)
  have hcap0 : w.mem.capacity ≠ 0 := by rw [hcap]; decide
  -- the entry just inserted survives
  have hnewest := cache_keeps_new (slowKey n) (slowPage n) (slowTime n) order w hcap0 hk
    (fun k' v' hl => (hent k' v' hl).1) hord
  have hacc' : (cache (slowKey n) (slowPage n) (slowTime n) order w).mem.used
      = accounted (cache (slowKey n) (slowPage n) (slowTime n) order w) :=
    step_accounted w (Op.cache (slowKey n) (slowPage n) (slowTime n) order) hacc
  have hent' : ∀ k v,
      (cache (slowKey n) (slowPage n) (slowTime n) order w).mem.pages.lookup k = some v →
      v.atime < ((n + 1 : Nat) : Int) ∧ (2 : Int) ^ 19 ≤ (v.page.cap : Int) + 4096 :=
    cache_all_entries
    (fun v => v.atime < ((n + 1 : Nat) : Int) ∧ (2 : Int) ^ 19 ≤ (v.page.cap : Int) + 4096)
    (slowKey n) (slowPage n) (slowTime n) order w
    (fun k v hl => ⟨by have := (hent k v hl).1; push_cast; omega, (hent k v hl).2⟩)
    ⟨by show (n : Int) < ((n + 1 : Nat) : Int); push_cast; omega, by
      show (2 : Int) ^ 19 ≤ ((slowPage n).cap : Int) + 4096
      rw [hsz]; decide⟩
  have hfresh' : ∀ m, n + 1 ≤ m →
      (cache (slowKey n) (slowPage n) (slowTime n) order w).mem.pages.lookup (slowKey m)
        = none := by
    intro m hm
    refine step_keeps_absent (slowKey m) w (Op.cache (slowKey n) (slowPage n) (slowTime n) order)
      ?_ (hfresh m (by omega))
    intro p t o he
    have : slowKey n = slowKey m := by injection he
    have := slowKey_injective this
    omega
  -- the pass runs and evicts exactly one of the three entries
  have hpos : 0 < w.mem.used := by
    obtain ⟨e1, e2, _, hsum⟩ := accounted_two w hlen
    rw [hacc, hsum]
    unfold entrySize
    omega
  have hlen3 : (inserted (slowKey n) (slowPage n) (slowTime n) w).mem.pages.entries.length = 3 := by
    rw [entries_length_inserted _ _ _ w hk, hlen]
  have hrun : cache (slowKey n) (slowPage n) (slowTime n) order w
      = cleanup order (inserted (slowKey n) (slowPage n) (slowTime n) w) := by
    rw [cache_eq]
    have hgt : (inserted (slowKey n) (slowPage n) (slowTime n) w).mem.used
        > (inserted (slowKey n) (slowPage n) (slowTime n) w).mem.capacity := by
      show w.mem.used + (((slowPage n).cap : Int) + 4096) > w.mem.capacity
      rw [hsz, hcap]
      omega
    simp only [hcap0, hk, false_or, ne_eq, not_true_eq_false, if_false]
    rw [if_pos hgt]
  have hlen' : (cache (slowKey n) (slowPage n) (slowTime n) order w).mem.pages.entries.length
      = 2 := by
    obtain ⟨k, v, hkv, hcl⟩ := cleanup_one_pair order _ hord (Or.inr hlen3)
    rw [hrun, hcl]
    have := entries_length_delete k v _ hkv
    omega
  refine ⟨⟨(cache_capacity _ _ _ _ _).trans hcap, hacc', hlen', hent', hfresh'⟩, ?_⟩
  obtain ⟨e1, e2, hes, hsum⟩ := accounted_two _ hlen'
  rw [hacc', hsum]
  have hm : (⟨slowKey n, ⟨slowTime n, slowPage n⟩⟩ : Sigma (fun _ : String => memItem))
      ∈ (cache (slowKey n) (slowPage n) (slowTime n) order w).mem.pages.entries :=
    AList.mem_lookup_iff.mp hnewest
  have h1 : (2 : Int) ^ 19 ≤ entrySize e1 :=
    (hent' e1.1 e1.2 (AList.mem_lookup_iff.mpr (by rw [hes]; exact List.mem_cons_self _ _))).2
  have h2 : (2 : Int) ^ 19 ≤ entrySize e2 :=
    (hent' e2.1 e2.2 (AList.mem_lookup_iff.mpr (by rw [hes]; simp))).2
  rw [hes] at hm
  simp only [List.mem_cons, List.mem_singleton, List.not_mem_nil, or_false] at hm
  have hbig : entrySize (⟨slowKey n, ⟨slowTime n, slowPage n⟩⟩ :
      Sigma (fun _ : String => memItem)) = 2 ^ 20 := hsz
  have e19 : (2 : Int) ^ 19 = 524288 := by decide
  have e20 : (2 : Int) ^ 20 = 1048576 := by decide
  rcases hm with hm | hm
  · rw [← hm, hbig]
    omega
  · rw [← hm, hbig]
    omega

theorem slow_base (orders : Nat → List String) :
    SlowInv 2 (feed (newMemStore ⟨1⟩) slowKey slowPage slowTime orders 2) := by
  have h0 : (newMemStore ⟨1⟩).mem.pages.lookup (slowKey 0) = none := rfl
  have h1 : feed (newMemStore ⟨1⟩) slowKey slowPage slowTime orders 1
      = inserted (slowKey 0) (slowPage 0) (slowTime 0) (newMemStore ⟨1⟩) := by
    show cache _ _ _ _ (newMemStore ⟨1⟩) = _
    rw [cache_eq]
    have hc : ¬ ((newMemStore ⟨1⟩).mem.capacity = 0) := by decide
    have hu : ¬ ((inserted (slowKey 0) (slowPage 0) (slowTime 0) (newMemStore ⟨1⟩)).mem.used
        > (inserted (slowKey 0) (slowPage 0) (slowTime 0) (newMemStore ⟨1⟩)).mem.capacity) := by
      decide
    simp only [hc, h0, false_or, ne_eq, not_true_eq_false, if_false]
    rw [if_neg hu]
  have h2 : feed (newMemStore ⟨1⟩) slowKey slowPage slowTime orders 2
      = inserted (slowKey 1) (slowPage 1) (slowTime 1)
          (inserted (slowKey 0) (slowPage 0) (slowTime 0) (newMemStore ⟨1⟩)) := by
    show cache _ _ _ _ (feed (newMemStore ⟨1⟩) slowKey slowPage slowTime orders 1) = _
    rw [h1, cache_eq]
    have hc : ¬ ((inserted (slowKey 0) (slowPage 0) (slowTime 0)
        (newMemStore ⟨1⟩)).mem.capacity = 0) := by decide
    have hl : (inserted (slowKey 0) (slowPage 0) (slowTime 0)
        (newMemStore ⟨1⟩)).mem.pages.lookup (slowKey 1) = none := by decide
    have hu : ¬ ((inserted (slowKey 1) (slowPage 1) (slowTime 1)
          (inserted (slowKey 0) (slowPage 0) (slowTime 0) (newMemStore ⟨1⟩))).mem.used
        > (inserted (slowKey 1) (slowPage 1) (slowTime 1)
          (inserted (slowKey 0) (slowPage 0) (slowTime 0) (newMemStore ⟨1⟩))).mem.capacity) := by
      decide
    simp only [hc, hl, false_or, ne_eq, not_true_eq_false, if_false]
    rw [if_neg hu]
  rw [h2]
  refine ⟨by decide, by decide, by decide, ?_, ?_⟩
  · intro k v hl
    have hm := AList.mem_lookup_iff.mp hl
    have he : (inserted (slowKey 1) (slowPage 1) (slowTime 1)
        (inserted (slowKey 0) (slowPage 0) (slowTime 0) (newMemStore ⟨1⟩))).mem.pages.entries
        = [⟨slowKey 1, ⟨slowTime 1, slowPage 1⟩⟩, ⟨slowKey 0, ⟨slowTime 0, slowPage 0⟩⟩] := by
      decide
    rw [he] at hm
    simp only [List.mem_cons, List.mem_singleton, List.not_mem_nil, or_false] at hm
    rcases hm with hm | hm <;> cases hm <;> decide
  · intro m hm
    rw [lookup_inserted_ne _ _ _ _ _ (fun e => by have := slowKey_injective e; omega),
      lookup_inserted_ne _ _ _ _ _ (fun e => by have := slowKey_injective e; omega)]
    rfl

theorem slow_stream_over_capacity (orders : Nat → List String)
    (hvalid : validFeed (newMemStore ⟨1⟩) slowKey slowPage slowTime orders) :
    ∀ n, SlowInv (n + 2) (feed (newMemStore ⟨1⟩) slowKey slowPage slowTime orders (n + 2)) ∧
      (1 ≤ n →
        (2 : Int) ^ 20 < (feed (newMemStore ⟨1⟩) slowKey slowPage slowTime orders (n + 2)).mem.used)
  | 0 => ⟨slow_base orders, fun h => absurd h (by decide)⟩
  | n + 1 => by
    have ih := (slow_stream_over_capacity orders hvalid n).1
    have hs := slow_step (n + 2) (by omega) (orders (n + 2)) _ ih (hvalid (n + 2))
    exact ⟨hs.1, fun _ => hs.2⟩

theorem uniform_feed_within (w : World) (keys : Nat → String)
    (pages : Nat → Page) (times : Nat → Int) (orders : Nat → List String) (s : Int)
    (hempty : w.mem.pages = ∅) (hused : w.mem.used = 0)
    (hsize : ∀ i, ((pages i).cap : Int) + 4096 = s) (hs : s ≤ w.mem.capacity)
    (hvalid : validFeed w keys pages times orders) (n : Nat) :
    (feed w keys pages times orders n).mem.used ≤ w.mem.capacity := by
  have hall : ∀ n, (feed w keys pages times orders n).mem.used
        = accounted (feed w keys pages times orders n) ∧
      (∀ k v, (feed w keys pages times orders n).mem.pages.lookup k = some v →
        (v.page.cap : Int) + 4096 = s) ∧
      (feed w keys pages times orders n).mem.capacity = w.mem.capacity ∧
      (feed w keys pages times orders n).mem.used ≤ w.mem.capacity := by
    intro n
    induction n with
    | zero =>
      refine ⟨?_, ?_, rfl, ?_⟩
      · show w.mem.used = accounted w
        rw [hused, accounted_empty w (by rw [hempty]; rfl)]
      · intro k v hl
        rw [show feed w keys pages times orders 0 = w from rfl, lookup_empty w hempty k] at hl
        cases hl
      · show w.mem.used ≤ _
        have := hsize 0
        omega
    | succ n ih =>
      obtain ⟨hacc, huni, hcap, hle⟩ := ih
      show (cache (keys n) (pages n) (times n) (orders n) _).mem.used = accounted _ ∧ _
      refine ⟨step_accounted _ (Op.cache (keys n) (pages n) (times n) (orders n)) hacc,
        cache_all_entries (fun v => (v.page.cap : Int) + 4096 = s) _ _ _ _ _ huni (hsize n),
        (cache_capacity _ _ _ _ _).trans hcap, ?_⟩
      have := cache_uniform_within s (keys n) (pages n) (times n) (orders n) _ hacc huni
        (by rw [hcap]; exact hle) (hsize n) (by rw [hcap]; exact hs) (hvalid n)
      rw [hcap] at this
      exact this
  exact (hall n).2.2.2

theorem pairVictims_sublist :
    ∀ (l : List (String × memItem)), List.Sublist (pairVictims l) l
  | [] => by simp [pairVictims]
  | [_] => by simp [pairVictims]
  | x :: y :: rest => by
    simp only [pairVictims]
    unfold pairVictim
    split
    · exact List.Sublist.cons _ (List.Sublist.cons₂ _ (pairVictims_sublist rest))
    · exact List.Sublist.cons₂ _ (List.Sublist.cons _ (pairVictims_sublist rest))

/-- A pass either ends with `used` below the capacity or has evicted every victim, each of
which was one entry of the table. -/
theorem evictUntil_count :
    ∀ (victims : List (String × memItem)) (w : World),
      (victims.map Prod.fst).Nodup → (∀ e ∈ victims, w.mem.pages.lookup e.1 = some e.2) →
      (evictUntil victims w).mem.used < w.mem.capacity ∨
      (evictUntil victims w).mem.pages.entries.length + victims.length
        = w.mem.pages.entries.length
  | [], w, _, _ => Or.inr (by simp [evictUntil])
  | e :: rest, w, hnd, hl => by
    have hnd' : (rest.map Prod.fst).Nodup := (List.nodup_cons.mp hnd).2
    have hne : ∀ e' ∈ rest, e'.1 ≠ e.1 := by
      intro e' he' heq
      exact (List.nodup_cons.mp hnd).1 (heq ▸ List.mem_map_of_mem Prod.fst he')
    have hcount := entries_length_delete e.1 e.2 w (hl e (List.mem_cons_self _ _))
    unfold evictUntil
    split
    · rename_i hlt
      exact Or.inl hlt
    · have ih := evictUntil_count rest (delete e.1 e.2.page w) hnd' (by
        intro e' he'
        rw [lookup_delete_ne e'.1 e.1 _ w (hne e' he')]
        exact hl e' (List.mem_cons_of_mem _ he'))
      rcases ih with h | h
      · exact Or.inl h
      · right
        simp only [List.length_cons]
        omega

theorem entrySize_sum_bounds (C : Int) :
    ∀ (l : List (Sigma (fun _ : String => memItem))), (∀ e ∈ l, 2 * entrySize e ≤ C) →
      2 * (l.map entrySize).sum ≤ (l.length : Int) * C ∧
      4096 * (l.length : Int) ≤ (l.map entrySize).sum
  | [], _ => by simp
  | e :: rest, h => by
    have ih := entrySize_sum_bounds C rest (fun x hx => h x (List.mem_cons_of_mem _ hx))
    have he := h e (List.mem_cons_self _ _)
    have hpos : (4096 : Int) ≤ entrySize e := by unfold entrySize; omega
    simp only [List.map_cons, List.sum_cons, List.length_cons]
    push_cast
    constructor
    · linarith [ih.1]
    · linarith [ih.2]

theorem accounted_bounds (w : World) (C : Int)
    (h : ∀ k v, w.mem.pages.lookup k = some v → 2 * ((v.page.cap : Int) + 4096) ≤ C) :
    2 * accounted w ≤ (w.mem.pages.entries.length : Int) * C ∧
    4096 * (w.mem.pages.entries.length : Int) ≤ accounted w :=
  entrySize_sum_bounds C w.mem.pages.entries
    (fun e he => h e.1 e.2 (AList.mem_lookup_iff.mpr he))

/-- One insertion of a new key: either `used` ends within the capacity, or the pass ran to
its end and evicted one entry of every pair of the table. -/
theorem cache_half_step (key : String) (p : Page) (now : Int) (order : List String)
    (w : World) (hcap0 : w.mem.capacity ≠ 0) (hk : w.mem.pages.lookup key = none)
    (hord : validOrder order (inserted key p now w)) :
    (cache key p now order w).mem.used ≤ w.mem.capacity ∨
    (cache key p now order w).mem.pages.entries.length + (w.mem.pages.entries.length + 1) / 2
      = w.mem.pages.entries.length + 1 := by
  rw [cache_eq]
  simp only [hcap0, hk, false_or, ne_eq, not_true_eq_false, if_false]
  split
  · rw [cleanup_eq_evictUntil order _ (validOrder_nodup order _ hord)]
    have hnd : ((pairVictims (visited order (inserted key p now w))).map Prod.fst).Nodup := by
      refine List.Nodup.sublist ((pairVictims_sublist _).map Prod.fst) ?_
      rw [visited_valid order _ hord]
      exact validOrder_nodup order _ hord
    have hcount := evictUntil_count (pairVictims (visited order (inserted key p now w)))
      (inserted key p now w) hnd
      (fun e he => (visited_lookup order _ e (pairVictims_mem _ e he)).2)
    rw [pairVictims_length, visited_length order _ hord,
      entries_length_inserted key p now w hk] at hcount
    rcases hcount with h | h
    · exact Or.inl (le_of_lt h)
    · exact Or.inr h
  · rename_i hngt
    exact Or.inl (not_lt.mp hngt)

/-- What holds along a stream of new keys whose pages each have an accounted size of at most
half the capacity, on a store that started empty. -/
theorem half_feed_invariant (w : World) (keys : Nat → String) (pages : Nat → Page)
    (times : Nat → Int) (orders : Nat → List String)
    (hempty : w.mem.pages = ∅) (hused : w.mem.used = 0)
    (hkeys : Function.Injective keys)
    (hsize : ∀ i, 2 * (((pages i).cap : Int) + 4096) ≤ w.mem.capacity) :
    ∀ n, (feed w keys pages times orders n).mem.capacity = w.mem.capacity ∧
      (feed w keys pages times orders n).mem.used
        = accounted (feed w keys pages times orders n) ∧
      (∀ k v, (feed w keys pages times orders n).mem.pages.lookup k = some v →
        2 * ((v.page.cap : Int) + 4096) ≤ w.mem.capacity) ∧
      (∀ m, n ≤ m → (feed w keys pages times orders n).mem.pages.lookup (keys m) = none) := by
  intro n
  induction n with
  | zero =>
    refine ⟨rfl, ?_, ?_, ?_⟩
    · show w.mem.used = accounted w
      rw [hused, accounted_empty w (by rw [hempty]; rfl)]
    · intro k v hl
      rw [show feed w keys pages times orders 0 = w from rfl, lookup_empty w hempty k] at hl
      cases hl
    · intro m _
      exact lookup_empty w hempty (keys m)
  | succ n ih =>
    obtain ⟨hcap, hacc, hhalf, hfresh⟩ := ih
    show (cache (keys n) (pages n) (times n) (orders n) _).mem.capacity = _ ∧ _
    refine ⟨(cache_capacity _ _ _ _ _).trans hcap,
      step_accounted _ (Op.cache (keys n) (pages n) (times n) (orders n)) hacc,
      cache_all_entries (fun v => 2 * ((v.page.cap : Int) + 4096) ≤ w.mem.capacity) _ _ _ _ _
        hhalf (hsize n), ?_⟩
    intro m hm
    refine step_keeps_absent (keys m) _ (Op.cache (keys n) (pages n) (times n) (orders n))
      ?_ (hfresh m (by omega))
    intro p t o he
    have hkm : keys n = keys m := by injection he
    have := hkeys hkm
    omega

theorem half_feed_count (w : World) (keys : Nat → String) (pages : Nat → Page)
    (times : Nat → Int) (orders : Nat → List String)
    (hempty : w.mem.pages = ∅) (hused : w.mem.used = 0)
    (hkeys : Function.Injective keys)
    (hsize : ∀ i, 2 * (((pages i).cap : Int) + 4096) ≤ w.mem.capacity)
    (hvalid : validFeed w keys pages times orders) :
    ∀ n, 4096 * ((feed w keys pages times orders n).mem.pages.entries.length : Int)
      ≤ w.mem.capacity + 4096 := by
  have hC : (8192 : Int) ≤ w.mem.capacity := by have := hsize 0; omega
  intro n
  induction n with
  | zero =>
    show 4096 * (w.mem.pages.entries.length : Int) ≤ _
    rw [hempty]
    show 4096 * ((0 : Nat) : Int) ≤ _
    omega
  | succ n ih =>
    obtain ⟨hcap, _, _, hfresh⟩ :=
      half_feed_invariant w keys pages times orders hempty hused hkeys hsize n
    obtain ⟨_, hacc', hhalf', _⟩ :=
      half_feed_invariant w keys pages times orders hempty hused hkeys hsize (n + 1)
    have hb := (accounted_bounds _ _ hhalf').2
    have hstep := cache_half_step (keys n) (pages n) (times n) (orders n)
      (feed w keys pages times orders n) (by rw [hcap]; omega) (hfresh n (le_refl n)) (hvalid n)
    rw [hcap] at hstep
    change (feed w keys pages times orders (n + 1)).mem.used ≤ _ ∨
      (feed w keys pages times orders (n + 1)).mem.pages.entries.length + _ = _ at hstep
    rcases hstep with h | h
    · rw [hacc'] at h
      omega
    · omega

theorem half_feed_recovers (w : World) (keys : Nat → String) (pages : Nat → Page)
    (times : Nat → Int) (orders : Nat → List String)
    (hempty : w.mem.pages = ∅) (hused : w.mem.used = 0)
    (hkeys : Function.Injective keys)
    (hsize : ∀ i, 2 * (((pages i).cap : Int) + 4096) ≤ w.mem.capacity)
    (hvalid : validFeed w keys pages times orders) :
    ∀ (k n : Nat), (feed w keys pages times orders n).mem.pages.entries.length ≤ 2 ^ k + 1 →
      ∃ m, m ≤ k ∧ (feed w keys pages times orders (n + m)).mem.used ≤ w.mem.capacity := by
  have hC : (8192 : Int) ≤ w.mem.capacity := by have := hsize 0; omega
  intro k
  induction k with
  | zero =>
    intro n hc
    obtain ⟨_, hacc, hhalf, _⟩ :=
      half_feed_invariant w keys pages times orders hempty hused hkeys hsize n
    have hb := (accounted_bounds _ _ hhalf).1
    have hc2 : ((feed w keys pages times orders n).mem.pages.entries.length : Int) ≤ 2 := by
      have : (feed w keys pages times orders n).mem.pages.entries.length ≤ 2 := by simpa using hc
      exact_mod_cast this
    have h3 := mul_le_mul_of_nonneg_right hc2 (show (0 : Int) ≤ w.mem.capacity by omega)
    refine ⟨0, le_refl 0, ?_⟩
    rw [Nat.add_zero, hacc]
    linarith
  | succ k ih =>
    intro n hc
    by_cases hgood : (feed w keys pages times orders n).mem.used ≤ w.mem.capacity
    · exact ⟨0, Nat.zero_le _, hgood⟩
    · obtain ⟨hcap, _, _, hfresh⟩ :=
        half_feed_invariant w keys pages times orders hempty hused hkeys hsize n
      have hstep := cache_half_step (keys n) (pages n) (times n) (orders n)
        (feed w keys pages times orders n) (by rw [hcap]; omega) (hfresh n (le_refl n))
        (hvalid n)
      rw [hcap] at hstep
      change (feed w keys pages times orders (n + 1)).mem.used ≤ _ ∨
        (feed w keys pages times orders (n + 1)).mem.pages.entries.length + _ = _ at hstep
      rcases hstep with h | h
      · exact ⟨1, by omega, h⟩
      · have hp : 2 ^ (k + 1) = 2 * 2 ^ k := by rw [pow_succ]; ring
        rw [hp] at hc
        have hnext : (feed w keys pages times orders (n + 1)).mem.pages.entries.length
            ≤ 2 ^ k + 1 := by
          generalize 2 ^ k = q at hc ⊢
          omega
        obtain ⟨m, hm, hu⟩ := ih (n + 1) hnext
        refine ⟨m + 1, by omega, ?_⟩
        rw [show n + (m + 1) = n + 1 + m by omega]
        exact hu

/-! ## The claims -/

/-- C1: from a store built by `newMemStore`, after each call of every finite sequence of
`cache`, `remove` and `load` calls (`ops.take n` is the sequence up to the n-th call), whatever
the page capacities, the timestamps and the visit orders of the eviction passes, `used` equals
the sum of `cap(page.Data) + 4096` over the entries of the table. -/
theorem C1_used_equals_sum_of_accounted_sizes (config : Config) (ops : List Op) (n : Nat) :
    (run (newMemStore config) (ops.take n)).mem.used =
      ((run (newMemStore config) (ops.take n)).mem.pages.entries.map
        (fun e => (e.2.page.cap : Int) + 4096)).sum :=
  run_invariant (fun w => w.mem.used = accounted w) step_accounted (ops.take n)
    (newMemStore config) rfl

/-- C2, as stated, fails in its sentence on inserting a key twice: on the reachable example
store (capacity 1 MiB, full, one entry with access time 5) a first `cache` of the new key `k`
at the same clock value 5 is evicted by its own pass (visited first, tie), so the second
`cache` of `k` finds the key absent, stores the second page and calls `Acquire` on it. -/
theorem C2_counterexample_second_insert_stores_second_page :
    0 < oneEntryStore.mem.capacity ∧
    oneEntryStore.mem.pages.lookup "k" = none ∧
    validOrder ["k", "x"] (inserted "k" ⟨2, 0⟩ 5 oneEntryStore) ∧
    (cache "k" ⟨2, 0⟩ 5 ["k", "x"] oneEntryStore).mem.pages.lookup "k" = none ∧
    validOrder ["k", "x"]
      (inserted "k" ⟨3, 8⟩ 6 (cache "k" ⟨2, 0⟩ 5 ["k", "x"] oneEntryStore)) ∧
    (cache "k" ⟨3, 8⟩ 6 ["k", "x"]
      (cache "k" ⟨2, 0⟩ 5 ["k", "x"] oneEntryStore)).mem.pages.lookup "k" = some ⟨6, ⟨3, 8⟩⟩ ∧
    acquires (cache "k" ⟨2, 0⟩ 5 ["k", "x"] oneEntryStore) ⟨3, 8⟩ = 0 ∧
    acquires (cache "k" ⟨3, 8⟩ 6 ["k", "x"]
      (cache "k" ⟨2, 0⟩ 5 ["k", "x"] oneEntryStore)) ⟨3, 8⟩ = 1 := by
  decide

/-- C2 (amended): `cache(key, p)` changes nothing (table, `used`, capacity and the log of page
calls are as before) whenever the capacity is 0 or the key is present; with capacity 0 a
store built by `newMemStore` stays empty with `used = 0` after any sequence of `cache` calls;
and with capacity above 0, inserting a key twice keeps the first page under the key and makes
no `Acquire` or `Release` on the second page whenever the first insert leaves the key in the
table, as it does when the first call reads a clock value above every stored access time, and
always on a store built by `newMemStore` (there the log holds the one `Acquire` of the first
page). -/
theorem C2_cache_is_noop_when_disabled_or_present :
    (∀ (w : World) (key : String) (p : Page) (now : Int) (order : List String),
      (w.mem.capacity = 0 ∨ w.mem.pages.lookup key ≠ none) → cache key p now order w = w) ∧
    (∀ (config : Config) (ops : List Op), (newMemStore config).mem.capacity = 0 →
      (∀ op ∈ ops, ∃ k p t o, op = Op.cache k p t o) →
      run (newMemStore config) ops = newMemStore config ∧
      (run (newMemStore config) ops).mem.pages = ∅ ∧
      (run (newMemStore config) ops).mem.used = 0) ∧
    (∀ (w : World) (key : String) (p1 p2 : Page) (t1 t2 : Int) (o1 o2 : List String),
      0 < w.mem.capacity →
      (cache key p1 t1 o1 w).mem.pages.lookup key = some ⟨t1, p1⟩ →
      (cache key p2 t2 o2 (cache key p1 t1 o1 w)).mem.pages.lookup key = some ⟨t1, p1⟩ ∧
      cache key p2 t2 o2 (cache key p1 t1 o1 w) = cache key p1 t1 o1 w ∧
      (cache key p2 t2 o2 (cache key p1 t1 o1 w)).calls = (cache key p1 t1 o1 w).calls) ∧
    (∀ (w : World) (key : String) (p1 p2 : Page) (t1 t2 : Int) (o1 o2 : List String),
      0 < w.mem.capacity → w.mem.pages.lookup key = none →
      (∀ k' v', w.mem.pages.lookup k' = some v' → v'.atime < t1) →
      validOrder o1 (inserted key p1 t1 w) →
      (cache key p2 t2 o2 (cache key p1 t1 o1 w)).mem.pages.lookup key = some ⟨t1, p1⟩ ∧
      cache key p2 t2 o2 (cache key p1 t1 o1 w) = cache key p1 t1 o1 w ∧
      (cache key p2 t2 o2 (cache key p1 t1 o1 w)).calls = (cache key p1 t1 o1 w).calls) ∧
    (∀ (config : Config) (key : String) (p1 p2 : Page) (t1 t2 : Int) (o1 o2 : List String),
      0 < (newMemStore config).mem.capacity →
      validOrder o1 (inserted key p1 t1 (newMemStore config)) →
      (cache key p2 t2 o2 (cache key p1 t1 o1 (newMemStore config))).mem.pages.lookup key
        = some ⟨t1, p1⟩ ∧
      (cache key p2 t2 o2 (cache key p1 t1 o1 (newMemStore config))).calls
        = [PageCall.Acquire p1]) := by
  have hkept : ∀ (w : World) (key : String) (p1 p2 : Page) (t1 t2 : Int)
      (o1 o2 : List String),
      (cache key p1 t1 o1 w).mem.pages.lookup key = some ⟨t1, p1⟩ →
      cache key p2 t2 o2 (cache key p1 t1 o1 w) = cache key p1 t1 o1 w := by
    intro w key p1 p2 t1 t2 o1 o2 h1
    exact cache_noop key p2 t2 o2 _ (Or.inr (by rw [h1]; exact Option.some_ne_none _))
  have hdouble : ∀ (w : World) (key : String) (p1 p2 : Page) (t1 t2 : Int)
      (o1 o2 : List String), 0 < w.mem.capacity → w.mem.pages.lookup key = none →
      (∀ k' v', w.mem.pages.lookup k' = some v' → v'.atime < t1) →
      validOrder o1 (inserted key p1 t1 w) →
      (cache key p1 t1 o1 w).mem.pages.lookup key = some ⟨t1, p1⟩ ∧
      cache key p2 t2 o2 (cache key p1 t1 o1 w) = cache key p1 t1 o1 w := by
    intro w key p1 p2 t1 t2 o1 o2 hc hk hnew hord
    have h1 := cache_keeps_new key p1 t1 o1 w (ne_of_gt hc) hk hnew hord
    exact ⟨h1, hkept w key p1 p2 t1 t2 o1 o2 h1⟩
  refine ⟨fun w key p now order h => cache_noop key p now order w h, ?_, ?_, ?_, ?_⟩
  · intro config ops hc hops
    have h := run_cache_capacity_zero ops (newMemStore config) hc hops
    rw [h]
    exact ⟨rfl, rfl, rfl⟩
  · intro w key p1 p2 t1 t2 o1 o2 _ h1
    rw [hkept w key p1 p2 t1 t2 o1 o2 h1]
    exact ⟨h1, rfl, rfl⟩
  · intro w key p1 p2 t1 t2 o1 o2 hc hk hnew hord
    obtain ⟨h1, h2⟩ := hdouble w key p1 p2 t1 t2 o1 o2 hc hk hnew hord
    rw [h2]
    exact ⟨h1, rfl, rfl⟩
  · intro config key p1 p2 t1 t2 o1 o2 hc hord
    have hempty : ∀ k, (newMemStore config).mem.pages.lookup k = none := fun _ => rfl
    obtain ⟨h1, h2⟩ := hdouble (newMemStore config) key p1 p2 t1 t2 o1 o2 hc (hempty key)
      (fun k' v' hl => by rw [hempty k'] at hl; cases hl) hord
    rw [h2]
    refine ⟨h1, ?_⟩
    -- one entry: the pass, when it runs, finds no pair
    rw [cache_eq]
    simp only [ne_of_gt hc, hempty key, false_or, ne_eq, not_true_eq_false, if_false]
    split
    · have hv : (visited o1 (inserted key p1 t1 (newMemStore config))).length = 1 := by
        rw [visited_length o1 _ hord, entries_length_inserted key p1 t1 _ (hempty key)]
        rfl
      rw [cleanup_eq_evictUntil o1 _ (validOrder_nodup o1 _ hord)]
      match hm : visited o1 (inserted key p1 t1 (newMemStore config)), hv with
      | [e], _ => rfl
    · rfl

/-- Witness of C2 on concrete stores: a present key, a store of capacity 0, a double insert
into the example store under a newer clock value, and a double insert on a fresh store of
capacity 1 MiB. -/
theorem C2_cache_is_noop_witness :
    cache "x" ⟨2, 0⟩ 6 ["x"] oneEntryStore = oneEntryStore ∧
    run (newMemStore ⟨0⟩) [Op.cache "a" ⟨1, 0⟩ 1 ["a"], Op.cache "b" ⟨2, 8⟩ 2 ["a", "b"]]
      = newMemStore ⟨0⟩ ∧
    (cache "k" ⟨3, 8⟩ 7 ["x", "k"]
      (cache "k" ⟨2, 0⟩ 6 ["k", "x"] oneEntryStore)).mem.pages.lookup "k" = some ⟨6, ⟨2, 0⟩⟩ ∧
    (cache "a" ⟨2, 8⟩ 2 ["a"] (cache "a" ⟨1, 0⟩ 1 ["a"] (newMemStore ⟨1⟩))).mem.pages.lookup "a"
      = some ⟨1, ⟨1, 0⟩⟩ :=
  ⟨C2_cache_is_noop_when_disabled_or_present.1 oneEntryStore "x" ⟨2, 0⟩ 6 ["x"]
      (Or.inr (by decide)),
    (C2_cache_is_noop_when_disabled_or_present.2.1 ⟨0⟩ _ (by decide) (by
      intro op hop
      simp only [List.mem_cons, List.mem_singleton, List.not_mem_nil, or_false] at hop
      rcases hop with h | h <;> exact ⟨_, _, _, _, h⟩)).1,
    (C2_cache_is_noop_when_disabled_or_present.2.2.1 oneEntryStore "k" ⟨2, 0⟩ ⟨3, 8⟩ 6 7
      ["k", "x"] ["x", "k"] (by decide) (by decide)).1,
    (C2_cache_is_noop_when_disabled_or_present.2.2.2.2 ⟨1⟩ "a" ⟨1, 0⟩ ⟨2, 8⟩ 1 2
      ["a"] ["a"] (by decide) (by decide)).1⟩

/-- C3, as stated, fails: with capacity 0 `cache` stores nothing, and with equal timestamps
the pass can evict the entry just inserted; in both cases the `load` that follows returns
`not found`. -/
theorem C3_counterexample_load_after_cache_fails :
    (load "k" 2 (cache "k" ⟨1, 0⟩ 1 ["k"] (newMemStore ⟨0⟩))).1 = Except.error "not found" ∧
    (load "k" 6 (cache "k" ⟨2, 0⟩ 5 ["k", "x"] oneEntryStore)).1
      = Except.error "not found" :=
  ⟨rfl, rfl⟩

/-- C3 (amended): in every state with non-zero capacity in which every stored access time is
below the clock value `tc` that `cache` reads, for every key `k`, page `p` and visit order,
`cache(k, p)` followed immediately by `load(k)` at clock value `tl` succeeds: it returns a
reader on the page stored under `k` (which is `p` when `k` was new) and no error, and the
access time then stored for `k` is `tl`, which is at least any time `t0` before the `load`. -/
theorem C3_load_after_cache_succeeds (w : World) (k : String) (p : Page) (tc tl t0 : Int)
    (order : List String)
    (hcap : w.mem.capacity ≠ 0)
    (hnew : ∀ k' v', w.mem.pages.lookup k' = some v' → v'.atime < tc)
    (hord : w.mem.pages.lookup k = none → validOrder order (inserted k p tc w))
    (hclock : t0 ≤ tl) :
    ∃ item : memItem,
      (cache k p tc order w).mem.pages.lookup k = some item ∧
      (w.mem.pages.lookup k = none → item.page = p) ∧
      (load k tl (cache k p tc order w)).1 = Except.ok ⟨item.page⟩ ∧
      (load k tl (cache k p tc order w)).2.mem.pages.lookup k = some ⟨tl, item.page⟩ ∧
      t0 ≤ tl := by
  have hsome : ∃ item : memItem, (cache k p tc order w).mem.pages.lookup k = some item ∧
      (w.mem.pages.lookup k = none → item.page = p) := by
    cases hl : w.mem.pages.lookup k with
    | none =>
      exact ⟨⟨tc, p⟩, cache_keeps_new k p tc order w hcap hl hnew (hord hl), fun _ => rfl⟩
    | some v =>
      refine ⟨v, ?_, fun h => by cases h⟩
      rw [cache_noop k p tc order w (Or.inr (by rw [hl]; exact Option.some_ne_none _))]
      exact hl
  obtain ⟨item, hitem, hp⟩ := hsome
  refine ⟨item, hitem, hp, ?_, ?_, hclock⟩
  · rw [load_hit k tl _ item hitem]
  · rw [load_hit k tl _ item hitem]
    exact AList.lookup_insert _

/-- Witness of C3: on the example store (one entry with access time 5) a key cached at time 6
is loaded at time 7. -/
theorem C3_load_after_cache_succeeds_witness :
    ∃ item : memItem,
      (cache "k" ⟨2, 0⟩ 6 ["k", "x"] oneEntryStore).mem.pages.lookup "k" = some item ∧
      (oneEntryStore.mem.pages.lookup "k" = none → item.page = ⟨2, 0⟩) ∧
      (load "k" 7 (cache "k" ⟨2, 0⟩ 6 ["k", "x"] oneEntryStore)).1 = Except.ok ⟨item.page⟩ ∧
      (load "k" 7 (cache "k" ⟨2, 0⟩ 6 ["k", "x"] oneEntryStore)).2.mem.pages.lookup "k"
        = some ⟨7, item.page⟩ ∧
      (6 : Int) ≤ 7 :=
  C3_load_after_cache_succeeds oneEntryStore "k" ⟨2, 0⟩ 6 7 6 ["k", "x"] (by decide)
    (by
      intro k' v' hl
      have hm : (⟨k', v'⟩ : Sigma (fun _ : String => memItem)) ∈ oneEntryStore.mem.pages.entries :=
        AList.mem_lookup_iff.mp hl
      have he : oneEntryStore.mem.pages.entries = [⟨"x", ⟨5, ⟨1, 2 ^ 20 - 4096⟩⟩⟩] := by decide
      rw [he, List.mem_singleton] at hm
      cases hm
      decide)
    (fun _ => by decide) (by decide)

/-- C4: `load(k)` returns the error `not found` exactly when `k` is not in the table, and a
failed `load` leaves the whole state (table and `used`) unchanged; `load(k)` fails on a store
built by `newMemStore` and driven by any calls none of which is a `cache` of `k`, and in every
state it fails right after `remove(k)`. -/
theorem C4_load_fails_exactly_on_absent_key (w : World) (k : String) (now : Int) :
    ((load k now w).1 = Except.error "not found" ↔ w.mem.pages.lookup k = none) ∧
    ((load k now w).1 = Except.error "not found" → (load k now w).2 = w) ∧
    (∀ (config : Config) (ops : List Op), (∀ op ∈ ops, ∀ p t o, op ≠ Op.cache k p t o) →
      (load k now (run (newMemStore config) ops)).1 = Except.error "not found") ∧
    (load k now (remove k w)).1 = Except.error "not found" := by
  have hiff : (load k now w).1 = Except.error "not found" ↔ w.mem.pages.lookup k = none := by
    cases hl : w.mem.pages.lookup k with
    | none => rw [load_miss k now w hl]; simp
    | some item => rw [load_hit k now w item hl]; simp
  refine ⟨hiff, ?_, ?_, ?_⟩
  · intro h
    rw [load_miss k now w (hiff.mp h)]
  · intro config ops hops
    rw [load_miss k now _ (run_keeps_absent k ops (newMemStore config) hops rfl)]
  · have : (remove k w).mem.pages.lookup k = none := by
      rw [remove_pages]
      exact AList.lookup_erase k _
    rw [load_miss k now _ this]

/-- Witness of C4: a `load` of a key that was never cached fails and changes nothing. -/
theorem C4_load_fails_witness :
    (load "y" 7 oneEntryStore).2 = oneEntryStore ∧
    (load "y" 7 (run (newMemStore ⟨1⟩) [Op.cache "x" ⟨1, 0⟩ 1 ["x"], Op.load "x" 2,
      Op.remove "y"])).1 = Except.error "not found" :=
  ⟨(C4_load_fails_exactly_on_absent_key oneEntryStore "y" 7).2.1 rfl,
    (C4_load_fails_exactly_on_absent_key oneEntryStore "y" 7).2.2.1 ⟨1⟩ _ (by
      intro op hop p t o h
      subst h
      simp at hop)⟩

/-- C5: after `remove(k)` the table is the old table without `k`, every other key has the
entry it had (page and access time), the capacity is unchanged, and when `k` held an entry
`used` went down by `cap(page.Data) + 4096` of its page and that page got one `Release`; when
`k` is absent the call changes nothing and releases no page. -/
theorem C5_remove_postcondition (w : World) (k : String) :
    (remove k w).mem.pages = w.mem.pages.erase k ∧
    (remove k w).mem.pages.lookup k = none ∧
    (∀ k', k' ≠ k → (remove k w).mem.pages.lookup k' = w.mem.pages.lookup k') ∧
    (remove k w).mem.capacity = w.mem.capacity ∧
    (∀ item, w.mem.pages.lookup k = some item →
      (remove k w).mem.used = w.mem.used - ((item.page.cap : Int) + 4096) ∧
      (remove k w).calls = PageCall.Release item.page :: w.calls) ∧
    (w.mem.pages.lookup k = none → remove k w = w) := by
  refine ⟨remove_pages k w, ?_, ?_, ?_, ?_, remove_absent k w⟩
  · rw [remove_pages]; exact AList.lookup_erase k _
  · intro k' hk'
    rw [remove_pages]
    exact AList.lookup_erase_ne hk'
  · cases h : w.mem.pages.lookup k with
    | none => rw [remove_absent k w h]
    | some item => rw [remove_present k item w h]; rfl
  · intro item h
    rw [remove_present k item w h]
    exact ⟨rfl, rfl⟩

/-- Witness of C5: removing the stored key of the example store, and removing an absent key. -/
theorem C5_remove_postcondition_witness :
    (remove "x" oneEntryStore).mem.used = oneEntryStore.mem.used - (((2 ^ 20 - 4096 : Nat) : Int) + 4096) ∧
    remove "y" oneEntryStore = oneEntryStore :=
  ⟨((C5_remove_postcondition oneEntryStore "x").2.2.2.2.1 ⟨5, ⟨1, 2 ^ 20 - 4096⟩⟩ (by decide)).1,
    (C5_remove_postcondition oneEntryStore "y").2.2.2.2.2 (by decide)⟩

/-- C6: with the `Acquire` and `Release` calls of the cache recorded per page, from a store
built by `newMemStore`, after each call of every sequence of `cache`, `remove` and `load`
calls, for every page the number of `Acquire` calls minus the number of `Release` calls is the
number of table entries that hold the page; in every state a call makes one `Acquire` on the
page exactly when it is a `cache` call that stores it, and makes as many `Release` calls on a
page as entries holding that page left the table during the call. -/
theorem C6_reference_balance (config : Config) (ops : List Op) (n : Nat) (p : Page) :
    ((acquires (run (newMemStore config) (ops.take n)) p : Int)
        - releases (run (newMemStore config) (ops.take n)) p
      = holding (run (newMemStore config) (ops.take n)) p) ∧
    (∀ (w : World) (op : Op), acquires (step w op) p = acquires w p + insertsPage w op p) ∧
    (∀ (w : World) (op : Op), (releases (step w op) p : Int)
      = releases w p + ((holding w p + insertsPage w op p : Nat) : Int) - holding (step w op) p) := by
  refine ⟨?_, fun w op => step_acquires w op p, ?_⟩
  · refine run_invariant (fun w => (acquires w p : Int) - releases w p = holding w p) ?_
      (ops.take n) (newMemStore config) (by simp [acquires, releases, holding, newMemStore])
    intro w op h
    have h1 := step_acquires w op p
    have h2 := step_releases w op p
    show (acquires (step w op) p : Int) - releases (step w op) p = holding (step w op) p
    rw [h1]
    push_cast
    linarith
  · intro w op
    have h2 := step_releases w op p
    push_cast
    linarith

/-- C7 (amended): on a fresh store of capacity `C` fed by repeated `cache` calls, for all
timestamps and every visit order of the passes: when the keys are distinct and every page has
an accounted size `cap + 4096` of at most `C / 2`, from every point of the stream `used` is
back to at most `C` after at most `N` further insertions, for any `N` with `C ≤ 4096 * 2 ^ N`
(a bound that depends on the capacity only); and when all pages have one common accounted
size of at most `C`, `used ≤ C` holds after every insertion. -/
theorem C7_bounded_recovery (w : World) (keys : Nat → String)
    (pages : Nat → Page) (times : Nat → Int) (orders : Nat → List String)
    (hempty : w.mem.pages = ∅) (hused : w.mem.used = 0)
    (hvalid : validFeed w keys pages times orders) :
    (Function.Injective keys →
      (∀ i, 2 * (((pages i).cap : Int) + 4096) ≤ w.mem.capacity) →
      ∀ N : Nat, w.mem.capacity ≤ 4096 * 2 ^ N →
      ∀ n, ∃ m, m ≤ N ∧ (feed w keys pages times orders (n + m)).mem.used ≤ w.mem.capacity) ∧
    (∀ s : Int, (∀ i, ((pages i).cap : Int) + 4096 = s) → s ≤ w.mem.capacity →
      ∀ n, (feed w keys pages times orders n).mem.used ≤ w.mem.capacity) := by
  constructor
  · intro hkeys hsize N hN n
    apply half_feed_recovers w keys pages times orders hempty hused hkeys hsize hvalid N n
    have hcount := half_feed_count w keys pages times orders hempty hused hkeys hsize hvalid n
    have hle : ((feed w keys pages times orders n).mem.pages.entries.length : Int)
        ≤ ((2 ^ N + 1 : Nat) : Int) := by
      push_cast
      linarith
    exact_mod_cast hle
  · intro s hsize hs n
    exact uniform_feed_within w keys pages times orders s hempty hused hsize hs hvalid n

/-- Witness of C7: a store of capacity 1 MiB fed with pages of accounted sizes 512 KiB and
256 KiB in turn, and with pages of the one accounted size 1 MiB. -/
theorem C7_bounded_recovery_witness :
    (∃ m, m ≤ 8 ∧
      (feed (newMemStore ⟨1⟩) slowKey halfPage slowTime
        (tableOrders (newMemStore ⟨1⟩) slowKey halfPage slowTime) (3 + m)).mem.used
        ≤ (newMemStore ⟨1⟩).mem.capacity) ∧
    (feed (newMemStore ⟨1⟩) slowKey (fun i => ⟨i, 2 ^ 20 - 4096⟩) slowTime
      (tableOrders (newMemStore ⟨1⟩) slowKey (fun i => ⟨i, 2 ^ 20 - 4096⟩) slowTime) 4).mem.used
      ≤ (newMemStore ⟨1⟩).mem.capacity :=
  ⟨(C7_bounded_recovery (newMemStore ⟨1⟩) slowKey halfPage slowTime
      (tableOrders (newMemStore ⟨1⟩) slowKey halfPage slowTime) rfl rfl
      (validFeed_tableOrders _ _ _ _)).1 slowKey_injective
      (fun i => by
        have hc : (newMemStore ⟨1⟩).mem.capacity = 2 ^ 20 := by decide
        rw [hc]
        unfold halfPage
        by_cases h : i % 2 = 0
        · simp only [h, if_true]; decide
        · simp only [h, if_false]; decide)
      8 (by decide) 3,
    (C7_bounded_recovery (newMemStore ⟨1⟩) slowKey (fun i => ⟨i, 2 ^ 20 - 4096⟩) slowTime
      (tableOrders (newMemStore ⟨1⟩) slowKey (fun i => ⟨i, 2 ^ 20 - 4096⟩) slowTime) rfl rfl
      (validFeed_tableOrders _ _ _ _)).2 (2 ^ 20)
      (fun _ => by show ((2 ^ 20 - 4096 : Nat) : Int) + 4096 = 2 ^ 20; decide) (by decide) 4⟩

/-- C7, as stated, fails: on a store of capacity 1 MiB (built by `newMemStore`), feed two
pages of accounted size half the capacity and then pages of accounted size equal to the
capacity, under distinct keys and a strictly increasing clock.  Every page fits the capacity
and the cumulative size exceeds it at the third insertion, but for every visit order of the
passes `used` is above the capacity after every insertion from the third on, so no number of
further insertions brings it back. -/
theorem C7_counterexample_used_stays_above_capacity :
    0 < (newMemStore ⟨1⟩).mem.capacity ∧
    Function.Injective slowKey ∧
    (∀ i, ((slowPage i).cap : Int) + 4096 ≤ (newMemStore ⟨1⟩).mem.capacity) ∧
    (newMemStore ⟨1⟩).mem.capacity < cumulative slowPage 3 ∧
    (∀ orders, validFeed (newMemStore ⟨1⟩) slowKey slowPage slowTime orders →
      ∀ n, 3 ≤ n → (newMemStore ⟨1⟩).mem.capacity
        < (feed (newMemStore ⟨1⟩) slowKey slowPage slowTime orders n).mem.used) ∧
    ¬ ∃ N : Nat, ∀ orders, validFeed (newMemStore ⟨1⟩) slowKey slowPage slowTime orders →
      ∃ m, m ≤ N ∧
        (feed (newMemStore ⟨1⟩) slowKey slowPage slowTime orders (3 + m)).mem.used
          ≤ (newMemStore ⟨1⟩).mem.capacity := by
  have hcapv : (newMemStore ⟨1⟩).mem.capacity = 2 ^ 20 := by decide
  have hall : ∀ orders, validFeed (newMemStore ⟨1⟩) slowKey slowPage slowTime orders →
      ∀ n, 3 ≤ n → (newMemStore ⟨1⟩).mem.capacity
        < (feed (newMemStore ⟨1⟩) slowKey slowPage slowTime orders n).mem.used := by
    intro orders hvalid n hn
    obtain ⟨m, rfl⟩ : ∃ m, n = m + 2 := ⟨n - 2, by omega⟩
    rw [hcapv]
    exact (slow_stream_over_capacity orders hvalid m).2 (by omega)
  refine ⟨by decide, slowKey_injective, ?_, by decide, hall, ?_⟩
  · intro i
    rw [hcapv]
    by_cases hi : 2 ≤ i
    · rw [slowPage_size i hi]
    · have h : (slowPage i).cap = 2 ^ 19 - 4096 := by
        unfold slowPage
        simp only [if_pos (show i < 2 by omega)]
      rw [h]
      decide
  · rintro ⟨N, hN⟩
    obtain ⟨m, _, hle⟩ := hN (tableOrders (newMemStore ⟨1⟩) slowKey slowPage slowTime)
      (validFeed_tableOrders _ _ _ _)
    have := hall _ (validFeed_tableOrders (newMemStore ⟨1⟩) slowKey slowPage slowTime) (3 + m)
      (by omega)
    omega

/-- C8: on a fresh store whose capacity is exactly `cap + 4096` for pages of the one capacity
`cap`, after `cache(a, pa)` then `cache(b, pb)` with two different keys (the scenario's `a` and
`b`), for all timestamps and every visit order of the pass, the pass of the second insert
evicts exactly one of the two entries: `stats` returns count 1 and `used` equal to the
capacity, and one key holds its page while the other is gone. -/
theorem C8_one_unit_scenario (w : World) (ka kb : String) (pa pb : Page) (ta tb : Int)
    (oa ob : List String)
    (hempty : w.mem.pages = ∅) (hused : w.mem.used = 0)
    (hcap : w.mem.capacity = (pa.cap : Int) + 4096) (hsame : pb.cap = pa.cap)
    (hkeys : ka ≠ kb)
    (hob : validOrder ob (inserted kb pb tb (cache ka pa ta oa w))) :
    stats (cache kb pb tb ob (cache ka pa ta oa w)) = (1, w.mem.capacity) ∧
    (((cache kb pb tb ob (cache ka pa ta oa w)).mem.pages.lookup ka = some ⟨ta, pa⟩ ∧
        (cache kb pb tb ob (cache ka pa ta oa w)).mem.pages.lookup kb = none) ∨
      ((cache kb pb tb ob (cache ka pa ta oa w)).mem.pages.lookup ka = none ∧
        (cache kb pb tb ob (cache ka pa ta oa w)).mem.pages.lookup kb = some ⟨tb, pb⟩)) := by
  have hcap0 : w.mem.capacity ≠ 0 := by rw [hcap]; omega
  have h1 : cache ka pa ta oa w = inserted ka pa ta w := by
    rw [cache_eq]
    have hu : (inserted ka pa ta w).mem.used = w.mem.capacity := by
      show w.mem.used + ((pa.cap : Int) + 4096) = _
      rw [hused, hcap]; ring
    have hc : (inserted ka pa ta w).mem.capacity = w.mem.capacity := rfl
    simp [hcap0, lookup_empty w hempty ka, hu, hc]
  rw [h1] at hob ⊢
  set w1 := inserted ka pa ta w with hw1
  have hla : w1.mem.pages.lookup ka = some ⟨ta, pa⟩ := lookup_inserted_self ka pa ta w
  have hlb : w1.mem.pages.lookup kb = none := by
    rw [hw1, lookup_inserted_ne kb ka pa ta w (Ne.symm hkeys)]
    exact lookup_empty w hempty kb
  have hc1 : w1.mem.capacity = w.mem.capacity := rfl
  have hu1 : w1.mem.used = w.mem.capacity := by
    show w.mem.used + ((pa.cap : Int) + 4096) = _
    rw [hused, hcap]; ring
  have hn1 : w1.mem.pages.entries.length = 1 := by
    rw [hw1, entries_length_inserted ka pa ta w (lookup_empty w hempty ka), hempty]
    rfl
  set w2 := inserted kb pb tb w1 with hw2
  have hu2 : w2.mem.used = w.mem.capacity + ((pa.cap : Int) + 4096) := by
    show w1.mem.used + ((pb.cap : Int) + 4096) = _
    rw [hu1, hsame]
  have hc2 : w2.mem.capacity = w.mem.capacity := rfl
  have hn2 : w2.mem.pages.entries.length = 2 := by
    rw [hw2, entries_length_inserted kb pb tb w1 hlb, hn1]
  have h2 : cache kb pb tb ob w1 = cleanup ob w2 := by
    rw [cache_eq]
    have hc1' : w1.mem.capacity ≠ 0 := hcap0
    have hgt : w2.mem.used > w2.mem.capacity := by rw [hu2, hc2]; omega
    simp only [hc1', hlb, false_or, ne_eq, not_true_eq_false, if_false]
    rw [if_pos hgt]
  obtain ⟨k, v, hkv, hcl⟩ := cleanup_one_pair ob w2 hob (Or.inl hn2)
  rw [h2, hcl]
  have hcount := entries_length_delete k v w2 hkv
  have hl2a : w2.mem.pages.lookup ka = some ⟨ta, pa⟩ := by
    rw [hw2, lookup_inserted_ne ka kb pb tb w1 hkeys]; exact hla
  have hl2b : w2.mem.pages.lookup kb = some ⟨tb, pb⟩ := lookup_inserted_self kb pb tb w1
  have hcases : (k = ka ∧ v = ⟨ta, pa⟩) ∨ (k = kb ∧ v = ⟨tb, pb⟩) := by
    by_cases hb : k = kb
    · subst hb
      rw [hl2b] at hkv
      exact Or.inr ⟨rfl, (Option.some.inj hkv).symm⟩
    · by_cases ha : k = ka
      · subst ha
        rw [hl2a] at hkv
        exact Or.inl ⟨rfl, (Option.some.inj hkv).symm⟩
      · rw [hw2, lookup_inserted_ne k kb pb tb w1 hb, hw1, lookup_inserted_ne k ka pa ta w ha,
          lookup_empty w hempty k] at hkv
        cases hkv
  have hsize : (v.page.cap : Int) = pa.cap := by
    rcases hcases with ⟨_, hv⟩ | ⟨_, hv⟩
    · rw [hv]
    · rw [hv]; exact congrArg Nat.cast hsame
  constructor
  · unfold stats
    have hlen : (delete k v.page w2).mem.pages.entries.length = 1 := by omega
    have hused' : (delete k v.page w2).mem.used = w.mem.capacity := by
      show w2.mem.used - ((v.page.cap : Int) + 4096) = _
      rw [hu2, hsize]; ring
    rw [hlen, hused']
    rfl
  · rcases hcases with ⟨hk, _⟩ | ⟨hk, _⟩
    · subst hk
      right
      exact ⟨lookup_delete_self k _ w2, by rw [lookup_delete_ne kb k _ w2 (Ne.symm hkeys)]; exact hl2b⟩
    · subst hk
      left
      exact ⟨by rw [lookup_delete_ne ka k _ w2 hkeys]; exact hl2a, lookup_delete_self k _ w2⟩

/-- Witness of C8: capacity 1 MiB, two pages of capacity `2^20 - 4096`, keys `a` and `b`. -/
theorem C8_one_unit_scenario_witness :
    stats (cache "b" ⟨2, 2 ^ 20 - 4096⟩ 1 ["a", "b"]
      (cache "a" ⟨1, 2 ^ 20 - 4096⟩ 1 [] (newMemStore ⟨1⟩))) = (1, 2 ^ 20) :=
  (C8_one_unit_scenario (newMemStore ⟨1⟩) "a" "b" ⟨1, 2 ^ 20 - 4096⟩ ⟨2, 2 ^ 20 - 4096⟩ 1 1
    [] ["a", "b"] rfl rfl (by decide) rfl (by decide) (by decide)).1

/-- C9: for every state in which the pass runs (`cleanup` is called only when `used` is above
the capacity; the statement needs only `capacity ≤ used`) and every order `e1..en` in which
`cleanup` visits the `n` entries, `cleanup` is the pairwise reference procedure: it evicts,
for `i = 1..j`, the entry of the pair `(e(2i-1), e(2i))` with the smaller access time (the
first-visited one on a tie) and keeps every other entry, an unpaired last entry included,
unchanged, where `j` is the smallest number of evictions after which `used < capacity`, or
`n / 2` if there is none; so `j ≤ n / 2` and the pass stops right after the first eviction
that brings `used` below the capacity. -/
theorem C9_cleanup_is_pairwise_procedure (order : List String) (w : World)
    (h : validOrder order w) (hpass : w.mem.capacity ≤ w.mem.used) :
    cleanup order w = cleanupSpec 0 order w ∧
    (visited order w).map Prod.fst = order ∧
    (∀ e ∈ visited order w, w.mem.pages.lookup e.1 = some e.2) ∧
    (pairVictims (visited order w)).length = w.mem.pages.entries.length / 2 ∧
    evictionCount 0 w.mem.used w.mem.capacity (pairVictims (visited order w))
      ≤ w.mem.pages.entries.length / 2 ∧
    (∀ i, i < evictionCount 0 w.mem.used w.mem.capacity (pairVictims (visited order w)) →
      w.mem.capacity ≤ usedAfter w.mem.used (pairVictims (visited order w)) i) ∧
    (evictionCount 0 w.mem.used w.mem.capacity (pairVictims (visited order w))
        < w.mem.pages.entries.length / 2 →
      usedAfter w.mem.used (pairVictims (visited order w))
        (evictionCount 0 w.mem.used w.mem.capacity (pairVictims (visited order w)))
        < w.mem.capacity) ∧
    (cleanup order w).mem.used = usedAfter w.mem.used (pairVictims (visited order w))
      (evictionCount 0 w.mem.used w.mem.capacity (pairVictims (visited order w))) ∧
    (∀ k, (cleanup order w).mem.pages.lookup k =
      if k ∈ ((pairVictims (visited order w)).take
          (evictionCount 0 w.mem.used w.mem.capacity (pairVictims (visited order w)))).map
            Prod.fst
      then none else w.mem.pages.lookup k) := by
  have h01 := evictionCount_zero_eq_one w.mem.used w.mem.capacity
    (pairVictims (visited order w)) hpass
  have hlen : (pairVictims (visited order w)).length = w.mem.pages.entries.length / 2 := by
    rw [pairVictims_length, visited_length order w h]
  have hle := evictionCount_le 0 w.mem.used w.mem.capacity (pairVictims (visited order w))
  have hleast := evictionCount_least w.mem.capacity (pairVictims (visited order w)) w.mem.used
  rw [← h01] at hleast
  have heq : cleanup order w = cleanupSpec 0 order w := by
    rw [cleanup_eq_evictUntil order w (validOrder_nodup order w h), ← cleanupSpec_eq_evictUntil]
    unfold cleanupSpec
    rw [h01]
  refine ⟨heq, visited_valid order w h, fun e he => (visited_lookup order w e he).2, hlen,
    hlen ▸ hle, ?_, fun hj => hleast.2.2 (hlen ▸ hj), ?_, ?_⟩
  · intro i hi
    by_cases hz : i = 0
    · subst hz
      simp only [usedAfter, List.take_zero, List.map_nil, List.sum_nil, sub_zero]
      exact hpass
    · exact hleast.2.1 i (by omega) hi
  · rw [heq]
    unfold cleanupSpec
    rw [used_foldl_delete, usedAfter_take _ _ _ hle]
  · intro k
    rw [heq]
    unfold cleanupSpec
    rw [lookup_foldl_delete]

/-- Witness of C9: a pass over the three entries of a store that is over its capacity. -/
theorem C9_cleanup_is_pairwise_procedure_witness :
    cleanup ["x", "a", "b"] (inserted "b" ⟨3, 0⟩ 7 (inserted "a" ⟨2, 0⟩ 6 oneEntryStore))
      = cleanupSpec 0 ["x", "a", "b"]
          (inserted "b" ⟨3, 0⟩ 7 (inserted "a" ⟨2, 0⟩ 6 oneEntryStore)) :=
  (C9_cleanup_is_pairwise_procedure ["x", "a", "b"]
    (inserted "b" ⟨3, 0⟩ 7 (inserted "a" ⟨2, 0⟩ 6 oneEntryStore)) (by decide) (by decide)).1

/-- C10: when the capacity is not 0, the key is new and the clock value given to the new entry
is above the access time of every entry of the table, then for every page and every visit
order of the pass the key holds the page `p` with that clock value when `cache` returns; with
an equal access time in the table this can fail: on a tie the pass evicts the first-visited
entry of the pair, which can be the new one. -/
theorem C10_new_entry_survives_its_pass :
    (∀ (w : World) (key : String) (p : Page) (now : Int) (order : List String),
      w.mem.capacity ≠ 0 → w.mem.pages.lookup key = none →
      (∀ k' v', w.mem.pages.lookup k' = some v' → v'.atime < now) →
      validOrder order (inserted key p now w) →
      (cache key p now order w).mem.pages.lookup key = some ⟨now, p⟩) ∧
    (oneEntryStore.mem.capacity ≠ 0 ∧ oneEntryStore.mem.pages.lookup "k" = none ∧
      oneEntryStore.mem.pages.entries = [⟨"x", ⟨5, ⟨1, 2 ^ 20 - 4096⟩⟩⟩] ∧
      validOrder ["k", "x"] (inserted "k" ⟨2, 0⟩ 5 oneEntryStore) ∧
      (cache "k" ⟨2, 0⟩ 5 ["k", "x"] oneEntryStore).mem.pages.lookup "k" = none) :=
  ⟨fun w key p now order hcap hk hnew hord => cache_keeps_new key p now order w hcap hk hnew hord,
    by decide⟩

/-- Witness of C10: the example store holds `x` with access time 5; a new key cached at
time 6 survives the pass that its insertion triggers. -/
theorem C10_new_entry_survives_witness :
    (cache "k" ⟨2, 0⟩ 6 ["k", "x"] oneEntryStore).mem.pages.lookup "k" = some ⟨6, ⟨2, 0⟩⟩ :=
  C10_new_entry_survives_its_pass.1 oneEntryStore "k" ⟨2, 0⟩ 6 ["k", "x"] (by decide) (by decide)
    (by
      intro k' v' hl
      have hm : (⟨k', v'⟩ : Sigma (fun _ : String => memItem)) ∈ oneEntryStore.mem.pages.entries :=
        AList.mem_lookup_iff.mp hl
      have he : oneEntryStore.mem.pages.entries = [⟨"x", ⟨5, ⟨1, 2 ^ 20 - 4096⟩⟩⟩] := by decide
      rw [he, List.mem_singleton] at hm
      cases hm
      decide)
    (by decide)

end chunk
